import Mathlib

/-!
# Verification of the maze-solver core

A shallow embedding of the core of the `maze-solver` repository:

* the grid model (`Maze`, `Maze.create`, `Maze.isValidMove` — `maze.ts`),
* the A* path solver (`AStarSolver.findPath` — `astar.ts`),
* the DFS maze generator (`MazeGenerator` — `generator.ts`),

together with proofs of the behavioural properties claimed by the
specification: validation behaviour of the construction factory, path
validity and optimality of the solver, the attempt budget of the boundary
entrance/exit placement and the spanning-tree structure of the carved maze.

Conventions of the embedding:

* TypeScript `number` coordinates are embedded as `Int` (the solver forms
  coordinates such as `x - 1` that can be negative before they are
  bounds-checked).
* A cell matrix `number[][]` is a `List (List Nat)` (`0` = passable,
  `1` = wall); an out-of-range access, which yields `undefined` in
  JavaScript and hence fails the `=== 0` / `=== 1` comparisons, is embedded
  with a default value `1` (distinct from `0`, so `cellAt g c = 0` holds
  exactly when the access is in range and the stored cell is `0`).
* Functions that `throw` are embedded returning `Option` (`none` = error).
* The string keys `"x,y"` used for hash-map lookups are in bijection with
  coordinates, so the maps keyed by such strings are embedded as functions
  `Coordinate → Option _`.
* Unbounded loops (the A* main loop, path reconstruction, the recursive
  carver) take an explicit fuel argument and return `none` when the fuel
  runs out; the theorems below produce the fuel needed, so no behaviour is
  lost.
* `Math.random()` draws are embedded as an oracle `ρ : Nat → Nat` together
  with a running draw index; `Math.floor(Math.random() * k)`, a uniform
  value in `{0, …, k-1}`, is embedded as `ρ i % k`.  All theorems quantify
  over every oracle, hence over every possible sequence of draws.
-/

/-- `Coordinate` (maze.ts): an immutable pair of numbers. -/
structure Coordinate where
  x : Int
  y : Int
deriving DecidableEq, Repr

/-- A cell matrix: `number[][]`, `0` passable, `1` wall. -/
abbrev Board := List (List Nat)

/-- Cell access `board[y][x]` with out-of-range reads embedded as the
non-zero, non-wall-test-passing… default `1`; see the header: a read that is
out of range can never satisfy `=== 0`, and in every place the source
compares with `=== 1` the access is bounds-guarded first. -/
def cellAt (board : Board) (c : Coordinate) : Nat :=
  (board.getD c.y.toNat []).getD c.x.toNat 1

/-- `Maze.isValidCoordinate` (maze.ts line 70): in bounds (width taken from
row 0) and passable. -/
def isValidCoordinate (board : Board) (c : Coordinate) : Bool :=
  decide (0 ≤ c.y) && decide (c.y < (board.length : Int)) &&
  decide (0 ≤ c.x) && decide (c.x < ((board.headD []).length : Int)) &&
  decide (cellAt board c = 0)

/-- The `Maze` class (maze.ts): a board plus start and end coordinates. -/
structure Maze where
  maze : Board
  start : Coordinate
  endc : Coordinate
deriving DecidableEq, Repr

namespace Maze

/-- `Maze.create` (maze.ts line 52).  Note the faithful reproduction of the
source: `isPossibleEnd` is computed from `start`, not `end`.  A thrown
`Error` is embedded as `none`. -/
def create (board : Board) (start endc : Coordinate) : Option Maze :=
  let isPossibleStart : Bool := isValidCoordinate board start
  let isPossibleEnd : Bool := isValidCoordinate board start
  if !isPossibleStart || !isPossibleEnd then
    none
  else
    some ⟨board, start, endc⟩

/-- `Maze.isValidMove` (maze.ts line 87). -/
def isValidMove (m : Maze) (c : Coordinate) : Bool :=
  isValidCoordinate m.maze c

end Maze

/-! ## The A* solver (astar.ts) -/

/-- `AStarSolver.heuristic` (astar.ts line 91): Manhattan distance. -/
def heuristic (a b : Coordinate) : Nat :=
  (a.x - b.x).natAbs + (a.y - b.y).natAbs

/-- `AStarSolver.getNeighbors` (astar.ts line 111). -/
def getNeighbors (c : Coordinate) : List Coordinate :=
  [⟨c.x - 1, c.y⟩, ⟨c.x + 1, c.y⟩, ⟨c.x, c.y - 1⟩, ⟨c.x, c.y + 1⟩]

/-- `PriorityQueue.enqueue` (astar.ts line 165): push then stable sort by
priority.  On a list that is already sorted — an invariant of every queue
the solver builds — push-then-stable-sort is exactly ordered insertion
after all entries of equal or smaller priority, which is what this function
performs. -/
def pqEnqueue (q : List (Coordinate × Nat)) (e : Coordinate × Nat) :
    List (Coordinate × Nat) :=
  match q with
  | [] => [e]
  | x :: xs => if x.2 ≤ e.2 then x :: pqEnqueue xs e else e :: x :: xs

/-- Pointwise update of a coordinate-keyed map (`Map.set`). -/
def mapSet {α : Type} (f : Coordinate → Option α) (k : Coordinate) (v : α) :
    Coordinate → Option α :=
  fun c => if c = k then some v else f c

/-- The solver state: the priority frontier and the three maps
(`openSet`, `parentMap`, `gScore`, `fScore` of `findPath`). -/
structure AState where
  openSet : List (Coordinate × Nat)
  parentMap : Coordinate → Option Coordinate
  gScore : Coordinate → Option Nat
  fScore : Coordinate → Option Nat

/-- The body of the `for (const neighbor of neighbors)` loop of `findPath`
(astar.ts lines 50–78) for one neighbor.  `gScore.get(current)!` is embedded
as `getD 0`: every dequeued coordinate carries a `gScore` (the invariant the
source's `!` assertion relies on), so the default is never read. -/
def relaxNeighbor (m : Maze) (current : Coordinate) (s : AState)
    (neighbor : Coordinate) : AState :=
  if m.isValidMove neighbor then
    let tentativeGScore := (s.gScore current).getD 0 + 1
    let doUpdate : Bool :=
      match s.gScore neighbor with
      | none => true
      | some gn => decide (tentativeGScore < gn)
    if doUpdate then
      let f := tentativeGScore + heuristic neighbor m.endc
      { openSet := pqEnqueue s.openSet (neighbor, f)
        parentMap := mapSet s.parentMap neighbor current
        gScore := mapSet s.gScore neighbor tentativeGScore
        fScore := mapSet s.fScore neighbor f }
    else s
  else s

/-- `AStarSolver.buildPath` (astar.ts line 131): follow the parent map back
from `current`, building the path front-to-back.  The source's unguarded
`while` loop takes fuel here; `none` means the fuel ran out (which the
theorems below rule out for the fuel the solver passes). -/
def buildPath (fuel : Nat) (parentMap : Coordinate → Option Coordinate)
    (current : Coordinate) : Option (List Coordinate) :=
  match fuel with
  | 0 => none
  | fuel + 1 =>
    match parentMap current with
    | none => some [current]
    | some p => (buildPath fuel parentMap p).map (fun l => l ++ [current])

/-- The `while (!openSet.isEmpty())` loop of `findPath` (astar.ts lines
41–79).  Result: `none` = fuel exhausted, `some none` = frontier exhausted
(the source returns `null`), `some (some p)` = path found. -/
def astarLoop (m : Maze) (fuel : Nat) (s : AState) :
    Option (Option (List Coordinate)) :=
  match fuel with
  | 0 => none
  | fuel + 1 =>
    match s.openSet with
    | [] => some none
    | (current, _) :: rest =>
      if current = m.endc then
        (buildPath (fuel + 1) s.parentMap current).map some
      else
        astarLoop m fuel
          ((getNeighbors current).foldl (relaxNeighbor m current)
            { s with openSet := rest })

/-- The initial solver state of `findPath` (astar.ts lines 30–39): the
frontier holds the start at priority `0`, and the start's `gScore` and
`fScore` are set. -/
def initState (m : Maze) : AState :=
  { openSet := [(m.start, 0)]
    parentMap := fun _ => none
    gScore := fun c => if c = m.start then some 0 else none
    fScore := fun c => if c = m.start then some (heuristic m.start m.endc) else none }

/-- `AStarSolver.findPath` (astar.ts line 26). -/
def findPath (m : Maze) (fuel : Nat) : Option (Option (List Coordinate)) :=
  astarLoop m fuel (initState m)

/-! ## The maze generator (generator.ts)

The source keeps one module-level `directions` array and shuffles it **in
place** (`shuffleDirections`).  `recursiveBacktrack` iterates this very
array with `for … of`, which in JavaScript reads the live array element by
element — so the re-shuffles performed by nested recursive calls are
visible to the parent's ongoing iteration.  The embedding is faithful to
this: the current direction array is threaded through the generator state
and the carving loop re-reads it by index after every recursive call. -/

namespace MazeGenerator

/-- The module-level `directions` array in its declaration order
(generator.ts line 156). -/
def directions : List (Int × Int) := [(0, 1), (1, 0), (0, -1), (-1, 0)]

/-- `MazeGenerator.isValidCoordinate` (generator.ts line 235): strictly
inside the outer wall ring. -/
def isValidCoordinate (W H : Nat) (x y : Int) : Bool :=
  decide (0 < x) && decide (x < (W : Int) - 1) &&
  decide (0 < y) && decide (y < (H : Int) - 1)

/-- `this.mazeArray[c.y][c.x] = v`. -/
def setCell (g : Board) (c : Coordinate) (v : Nat) : Board :=
  g.set c.y.toNat ((g.getD c.y.toNat []).set c.x.toNat v)

/-- One in-place swap `[l[i], l[j]] = [l[j], l[i]]`. -/
def listSwap {α : Type} (l : List α) (i j : Nat) : List α :=
  match l.get? i, l.get? j with
  | some a, some b => (l.set i b).set j a
  | _, _ => l

/-- `MazeGenerator.shuffleDirections` (generator.ts line 244): Fisher–Yates
on the live direction array, consuming three draws
(`j = ⌊random()·(i+1)⌋` for `i = 3, 2, 1`). -/
def shuffleDirections (ρ : Nat → Nat) (dirs : List (Int × Int)) (i : Nat) :
    List (Int × Int) :=
  let l1 := listSwap dirs 3 (ρ i % 4)
  let l2 := listSwap l1 2 (ρ (i + 1) % 3)
  listSwap l2 1 (ρ (i + 2) % 2)

/-- Generator state: the grid, the current content of the module-level
direction array, and the next random-draw index. -/
abbrev GenState := Board × List (Int × Int) × Nat

/-- The `for (const [dx, dy] of directions)` loop of `recursiveBacktrack`
(generator.ts lines 217–225).  The loop counter runs over the positions
`[0, 1, 2, 3]`; the direction at each position is read from the **current**
state, because the recursive calls re-shuffle the shared array mid-loop. -/
def rbLoop (step : GenState → Coordinate → Option GenState) (W H : Nat)
    (coord : Coordinate) : List Nat → GenState → Option GenState
  | [], st => some st
  | k :: ks, (g, dirs, i) =>
    let d := dirs.getD k (0, 0)
    let newX := coord.x + d.1 * 2
    let newY := coord.y + d.2 * 2
    if isValidCoordinate W H newX newY && decide (cellAt g ⟨newX, newY⟩ = 1) then
      match step (setCell g ⟨coord.x + d.1, coord.y + d.2⟩ 0, dirs, i) ⟨newX, newY⟩ with
      | none => none
      | some st' => rbLoop step W H coord ks st'
    else
      rbLoop step W H coord ks (g, dirs, i)

/-- `MazeGenerator.recursiveBacktrack` (generator.ts line 212), with fuel
bounding the recursion depth (`generate` passes `W·H`, which the theorems
show is never exhausted: each recursive call happens on a cell that was
still a wall and is carved on entry). -/
def recursiveBacktrack (W H : Nat) (ρ : Nat → Nat) :
    Nat → GenState → Coordinate → Option GenState
  | 0, _, _ => none
  | fuel + 1, (g, dirs, i), coord =>
    let g1 := setCell g coord 0
    let dirs1 := shuffleDirections ρ dirs i
    rbLoop (fun st t => recursiveBacktrack W H ρ fuel st t) W H coord
      [0, 1, 2, 3] (g1, dirs1, i + 3)

/-- `MazeGenerator.isValidStartEndPoint` (generator.ts line 338): count the
wall neighbors that are **in bounds**, over the current content of the
direction array, and accept when there are at most two. -/
def isValidStartEndPoint (dirs : List (Int × Int)) (W H : Nat) (g : Board)
    (c : Coordinate) : Bool :=
  decide ((dirs.foldl (fun wallCount d =>
    let ux := c.x + d.1
    let uy := c.y + d.2
    if 0 ≤ ux ∧ 0 ≤ uy ∧ uy < (H : Int) ∧ ux < (W : Int) ∧ cellAt g ⟨ux, uy⟩ = 1
    then wallCount + 1 else wallCount) 0) ≤ 2)

/-- The four sides of `createStartAndEnd`. -/
inductive Side where
  | top
  | right
  | bottom
  | left
deriving DecidableEq, Repr

/-- `MazeGenerator.getRandomSizeCoordinate` (generator.ts line 316) for one
raw draw `r` (`⌊random()·k⌋` embedded as `r % k`). -/
def getRandomSizeCoordinate (W H : Nat) (side : Side) (r : Nat) : Coordinate :=
  match side with
  | .top => ⟨1 + (r % (W - 2) : Nat), 0⟩
  | .right => ⟨(W : Int) - 1, 1 + (r % (H - 2) : Nat)⟩
  | .bottom => ⟨1 + (r % (W - 2) : Nat), (H : Int) - 1⟩
  | .left => ⟨0, 1 + (r % (H - 2) : Nat)⟩

/-- The `while (!isValid && attempts < maxAttempts)` loop of
`createStartAndEndCoordinate` (generator.ts lines 297–301), recursing on
the number of attempts still allowed.  `none` embeds the thrown
`Error("Failed to create usable maze")`. -/
def secLoop (dirs : List (Int × Int)) (W H : Nat) (g : Board) (side : Side)
    (ρ : Nat → Nat) : Nat → Nat → Option (Coordinate × Nat)
  | 0, _ => none
  | remaining + 1, i =>
    let coord := getRandomSizeCoordinate W H side (ρ i)
    if isValidStartEndPoint dirs W H g coord then some (coord, i + 1)
    else secLoop dirs W H g side ρ remaining (i + 1)

/-- `MazeGenerator.createStartAndEndCoordinate` (generator.ts line 291):
`maxAttempts = 100`. -/
def createStartAndEndCoordinate (dirs : List (Int × Int)) (W H : Nat)
    (g : Board) (side : Side) (ρ : Nat → Nat) (i : Nat) :
    Option (Coordinate × Nat) :=
  secLoop dirs W H g side ρ 100 i

/-- The twelve ordered pairs of distinct sides.  The source shuffles
`["top","right","bottom","left"]` with a random comparator and keeps the
first two entries; whatever the engine's sort does with the comparator, the
result is a permutation of the four sides, so the first two entries always
form an ordered pair of distinct sides.  The embedding draws that pair
directly. -/
def sidePairs : List (Side × Side) :=
  [(.top, .right), (.top, .bottom), (.top, .left),
   (.right, .top), (.right, .bottom), (.right, .left),
   (.bottom, .top), (.bottom, .right), (.bottom, .left),
   (.left, .top), (.left, .right), (.left, .bottom)]

/-- `MazeGenerator.createStartAndEnd` (generator.ts line 261): pick two
distinct sides, place a coordinate on each (both acceptance tests run on
the grid as carved — the doors are only forced passable afterwards), then
carve both doors. -/
def createStartAndEnd (dirs : List (Int × Int)) (W H : Nat) (g : Board)
    (ρ : Nat → Nat) (i : Nat) :
    Option (Coordinate × Coordinate × Board × Nat) :=
  let pr := sidePairs.getD (ρ i % 12) (Side.top, Side.right)
  match createStartAndEndCoordinate dirs W H g pr.1 ρ (i + 1) with
  | none => none
  | some (start, i1) =>
    match createStartAndEndCoordinate dirs W H g pr.2 ρ i1 with
    | none => none
    | some (endc, i2) =>
      some (start, endc, setCell (setCell g start 0) endc 0, i2)

/-- `MazeGenerator.generate` (generator.ts line 194): random odd start
cell, carve, place entrance/exit, build the `Maze`.  Draw indices: `0, 1`
for the start cell, the rest threaded through the state. -/
def generate (W H : Nat) (ρ : Nat → Nat) : Option Maze :=
  let startCell : Coordinate :=
    ⟨1 + (ρ 0 % ((W - 1) / 2) : Nat) * 2, 1 + (ρ 1 % ((H - 1) / 2) : Nat) * 2⟩
  let g0 : Board := List.replicate H (List.replicate W 1)
  match recursiveBacktrack W H ρ (W * H) (g0, directions, 2) startCell with
  | none => none
  | some (g, dirs, i) =>
    match createStartAndEnd dirs W H g ρ i with
    | none => none
    | some (start, endc, g2, _) => Maze.create g2 start endc

/-- The carving phase of `generate` in isolation: the grid as it stands
after `recursiveBacktrack` returns, before entrance/exit placement. -/
def carvePhase (W H : Nat) (ρ : Nat → Nat) : Option Board :=
  let startCell : Coordinate :=
    ⟨1 + (ρ 0 % ((W - 1) / 2) : Nat) * 2, 1 + (ρ 1 % ((H - 1) / 2) : Nat) * 2⟩
  let g0 : Board := List.replicate H (List.replicate W 1)
  match recursiveBacktrack W H ρ (W * H) (g0, directions, 2) startCell with
  | none => none
  | some (g, _, _) => some g

end MazeGenerator

/-! ## Verification vocabulary

Everything below is specification-side vocabulary used to state and prove
properties of the embedded program: reachability over a maze, the solver
invariants, termination measures, and the spec's wording of the boundary
acceptance test. -/

/-- `ReachFrom m src n c`: there is a walk of exactly `n` solver moves from
`src` to `c`, every step going to a `getNeighbors`-neighbor that is a valid
move on the maze. -/
inductive ReachFrom (m : Maze) (src : Coordinate) : Nat → Coordinate → Prop where
  | zero : ReachFrom m src 0 src
  | succ {n : Nat} {c d : Coordinate} : ReachFrom m src n c → d ∈ getNeighbors c →
      m.isValidMove d = true → ReachFrom m src (n + 1) d

/-- Reachability from the maze's entrance in exactly `n` moves. -/
def ReachN (m : Maze) (n : Nat) (c : Coordinate) : Prop :=
  ReachFrom m m.start n c

/-- `D` is the true shortest-path distance from the entrance to the exit:
some walk of `D` moves reaches the exit and no walk is shorter.  This is
the length breadth-first search finds. -/
def IsShortestDist (m : Maze) (D : Nat) : Prop :=
  ReachN m D m.endc ∧ ∀ k, ReachN m k m.endc → D ≤ k

/-- The state-only invariants maintained by the A* loop, apart from the
optimality invariant `InvCProp` below: the frontier is sorted by priority;
every frontier entry carries a `gScore`; frontier entries for the exit
bound the exit's `gScore` from above; the entrance keeps `gScore 0`; every
scored cell is the entrance or a valid move, and its score dominates the
length of some real walk to it; a scored exit still has a frontier entry
(the loop would have returned on popping it); and the parent map encodes,
for every scored cell other than the entrance, a strictly-`gScore`-
decreasing chain of valid neighbor steps. -/
structure AInvCore (m : Maze) (s : AState) : Prop where
  sorted : s.openSet.Pairwise (fun p q => p.2 ≤ q.2)
  qg : ∀ z pri, (z, pri) ∈ s.openSet → ∃ v, s.gScore z = some v
  exitPri : ∀ pri, (m.endc, pri) ∈ s.openSet →
    ∃ v, s.gScore m.endc = some v ∧ v ≤ pri
  gStart : s.gScore m.start = some 0
  gValid : ∀ z v, s.gScore z = some v → z = m.start ∨ m.isValidMove z = true
  gReach : ∀ z v, s.gScore z = some v → ∃ k, k ≤ v ∧ ReachN m k z
  endPending : ∀ v, s.gScore m.endc = some v → ∃ pri, (m.endc, pri) ∈ s.openSet
  pStart : s.parentMap m.start = none
  pProp : ∀ z u, s.parentMap z = some u → ∃ vz vu, s.gScore z = some vz ∧
    s.gScore u = some vu ∧ vu < vz ∧ z ∈ getNeighbors u ∧ m.isValidMove z = true
  pEx : ∀ z v, s.gScore z = some v → z ≠ m.start → ∃ u, s.parentMap z = some u

/-- The optimality invariant: every cell whose recorded `gScore` equals its
true distance from the entrance either still has a cheap-enough frontier
entry, or has already been expanded at that optimal score — in which case
every neighbor one step further along a shortest path carries its optimal
score as well. -/
def InvCProp (m : Maze) (s : AState) : Prop :=
  ∀ z v, s.gScore z = some v → ReachN m v z → (∀ k, ReachN m k z → v ≤ k) →
    (∃ pri, (z, pri) ∈ s.openSet ∧ pri ≤ v + heuristic z m.endc) ∨
    (∀ n, n ∈ getNeighbors z → m.isValidMove n = true → ReachN m (v + 1) n →
      (∀ k, ReachN m k n → v + 1 ≤ k) → s.gScore n = some (v + 1))

/-- The full invariant of the A* loop. -/
def AInv (m : Maze) (s : AState) : Prop :=
  AInvCore m s ∧ InvCProp m s

/-- All in-bounds passable cells of the maze, as a list (the solver only
ever records scores for the entrance and for cells in this list). -/
def validCells (m : Maze) : List Coordinate :=
  (List.range m.maze.length).flatMap (fun (y : Nat) =>
    (List.range (m.maze.headD []).length).filterMap (fun (x : Nat) =>
      if m.isValidMove ⟨(x : Int), (y : Int)⟩ then some ⟨(x : Int), (y : Int)⟩
      else none))

/-- Termination measure, first component: how many valid cells still have
no recorded `gScore`. -/
def muNone (m : Maze) (s : AState) : Nat :=
  (validCells m).countP (fun z => (s.gScore z).isNone)

/-- Termination measure, second component: the sum of all recorded
`gScore`s over the valid cells. -/
def muG (m : Maze) (s : AState) : Nat :=
  ((validCells m).map (fun z => (s.gScore z).getD 0)).sum

/-- The properties C4 asserts of a returned path, stated against the
embedding: runs from entrance to exit, every cell is the entrance or a
valid move, and consecutive cells are solver neighbors. -/
def PathProps (m : Maze) (p : List Coordinate) : Prop :=
  p.head? = some m.start ∧ p.getLast? = some m.endc ∧
  (∀ c ∈ p, c = m.start ∨ m.isValidMove c = true) ∧
  List.Chain' (fun u v => v ∈ getNeighbors u) p

/-- `PassReach g a b`: `b` can be reached from `a` by steps between
axis-aligned neighbors, every visited cell after `a` being in bounds and
passable (the same `isValidCoordinate` check the solver uses). -/
inductive PassReach (g : Board) : Coordinate → Coordinate → Prop where
  | refl (c : Coordinate) : PassReach g c c
  | step {a b c : Coordinate} : PassReach g a b → c ∈ getNeighbors b →
      isValidCoordinate g c = true → PassReach g a c

/-- Strictly inside the outer wall ring — the cells
`MazeGenerator.isValidCoordinate` accepts. -/
def Interior (W H : Nat) (c : Coordinate) : Prop :=
  0 < c.x ∧ c.x < (W : Int) - 1 ∧ 0 < c.y ∧ c.y < (H : Int) - 1

/-- An `H`-row board whose first `H` rows all have width `W`. -/
def Shaped (W H : Nat) (g : Board) : Prop :=
  g.length = H ∧ ∀ j, j < H → (g.getD j []).length = W

namespace MazeGenerator

/-- The spec's wording of the boundary acceptance test in claim C6: count a
neighbor when it is out of bounds (an "out-of-bounds neighbor counts as a
wall") or when it is an in-bounds wall. -/
def specWallCountOOB (W H : Nat) (g : Board) (c : Coordinate) : Nat :=
  directions.countP (fun d =>
    let ux := c.x + d.1
    let uy := c.y + d.2
    if 0 ≤ ux ∧ 0 ≤ uy ∧ uy < (H : Int) ∧ ux < (W : Int)
    then decide (cellAt g ⟨ux, uy⟩ = 1) else true)

/-- The number of wall neighbors among the in-bounds axis-aligned
neighbors — what the source's loop actually counts. -/
def inBoundsWallCount (W H : Nat) (g : Board) (c : Coordinate) : Nat :=
  directions.countP (fun d =>
    let ux := c.x + d.1
    let uy := c.y + d.2
    decide (0 ≤ ux ∧ 0 ≤ uy ∧ uy < (H : Int) ∧ ux < (W : Int) ∧
      cellAt g ⟨ux, uy⟩ = 1))

/-- The 24 arrangements of the four unit directions.  The module-level
direction array always holds one of these. -/
def perms24 : List (List (Int × Int)) :=
  [[(0, 1), (1, 0), (0, -1), (-1, 0)],
   [(0, 1), (1, 0), (-1, 0), (0, -1)],
   [(0, 1), (0, -1), (1, 0), (-1, 0)],
   [(0, 1), (0, -1), (-1, 0), (1, 0)],
   [(0, 1), (-1, 0), (1, 0), (0, -1)],
   [(0, 1), (-1, 0), (0, -1), (1, 0)],
   [(1, 0), (0, 1), (0, -1), (-1, 0)],
   [(1, 0), (0, 1), (-1, 0), (0, -1)],
   [(1, 0), (0, -1), (0, 1), (-1, 0)],
   [(1, 0), (0, -1), (-1, 0), (0, 1)],
   [(1, 0), (-1, 0), (0, 1), (0, -1)],
   [(1, 0), (-1, 0), (0, -1), (0, 1)],
   [(0, -1), (0, 1), (1, 0), (-1, 0)],
   [(0, -1), (0, 1), (-1, 0), (1, 0)],
   [(0, -1), (1, 0), (0, 1), (-1, 0)],
   [(0, -1), (1, 0), (-1, 0), (0, 1)],
   [(0, -1), (-1, 0), (0, 1), (1, 0)],
   [(0, -1), (-1, 0), (1, 0), (0, 1)],
   [(-1, 0), (0, 1), (1, 0), (0, -1)],
   [(-1, 0), (0, 1), (0, -1), (1, 0)],
   [(-1, 0), (1, 0), (0, 1), (0, -1)],
   [(-1, 0), (1, 0), (0, -1), (0, 1)],
   [(-1, 0), (0, -1), (0, 1), (1, 0)],
   [(-1, 0), (0, -1), (1, 0), (0, 1)]]

/-- A concrete sequence of random draws (already reduced modulo their
ranges) under which the 7×7 generation run carves only the two upper
lattice rows: the re-shuffles performed by nested `recursiveBacktrack`
calls on the shared direction array hide the downward direction from every
cell of the middle lattice row while it is being explored. -/
def rhoFail : Nat → Nat := fun n =>
  [0, 0, 2, 2, 1, 0, 2, 0, 3, 2, 1, 3, 1, 0, 1, 2, 0, 2, 2, 1].getD n 0

/-- The grid the carving phase produces under `rhoFail` on a 7×7 maze: the
whole bottom lattice row `y = 5` is still wall. -/
def carveFail : Board :=
  [[1, 1, 1, 1, 1, 1, 1],
   [1, 0, 1, 0, 0, 0, 1],
   [1, 0, 1, 1, 1, 0, 1],
   [1, 0, 0, 0, 0, 0, 1],
   [1, 1, 1, 1, 1, 1, 1],
   [1, 1, 1, 1, 1, 1, 1],
   [1, 1, 1, 1, 1, 1, 1]]

end MazeGenerator

/-- Postcondition of one (recursive) carving call entered at `coord` on
grid `g`: the direction array is still an arrangement of the four unit
directions, the shape is kept, cells are only ever carved (never restored
to walls), nothing outside the interior is touched, `coord` itself ends up
carved, and every carved cell either was already carved on entry or is
connected to `coord` through passable cells of the resulting grid. -/
def RbPost (W H : Nat) (coord : Coordinate) (g : Board)
    (out : MazeGenerator.GenState) : Prop :=
  out.2.1 ∈ MazeGenerator.perms24 ∧ Shaped W H out.1 ∧
  (∀ z, cellAt out.1 z = cellAt g z ∨ cellAt out.1 z = 0) ∧
  (∀ z, ¬ Interior W H z → cellAt out.1 z = cellAt g z) ∧
  cellAt out.1 coord = 0 ∧
  (∀ z, cellAt out.1 z = 0 → cellAt g z = 0 ∨ PassReach out.1 coord z)


/-! ## Construction-factory behaviour (claims C3 and C9) -/

/-- C3: the `create` factory never validates the exit — line 54 of maze.ts
passes `start` to the check that was meant to receive `end` — so a maze
whose exit lies on a Wall cell is constructed without any error, although
both the specification and the factory's own intent require rejection.
Failing input: board `[[0, 1]]` with entrance `(0,0)` (passable) and exit
`(1,0)` (a wall). -/
theorem create_accepts_wall_exit :
    Maze.create [[0, 1]] ⟨0, 0⟩ ⟨1, 0⟩ = some ⟨[[0, 1]], ⟨0, 0⟩, ⟨1, 0⟩⟩ ∧
    isValidCoordinate [[0, 1]] ⟨1, 0⟩ = false := by
  decide

/-- C9, counterexample: the claim says a non-rectangular cells matrix is
always rejected with a validation error, but `create` performs no shape
validation at all: the ragged board `[[0], [0, 0]]` (row lengths 1 and 2)
with a valid entrance is accepted. -/
theorem create_accepts_ragged_board :
    Maze.create [[0], [0, 0]] ⟨0, 0⟩ ⟨0, 1⟩ =
      some ⟨[[0], [0, 0]], ⟨0, 0⟩, ⟨0, 1⟩⟩ := by
  decide

/-- C9, amended: `create` fails exactly when the entrance fails the
bounds-and-passability check (which it evaluates twice); the shape of the
matrix and the exit are never examined. -/
theorem create_fails_iff_entrance_invalid (board : Board) (s e : Coordinate) :
    Maze.create board s e = none ↔ isValidCoordinate board s = false := by
  unfold Maze.create
  cases h : isValidCoordinate board s <;> simp [h]

/-! ## The boundary acceptance test (claim C6) -/

/-- Bridging lemma: the source's counting loop is a `countP` over the
direction list. -/
theorem foldl_wallCount (W H : Nat) (g : Board) (c : Coordinate) :
    ∀ (l : List (Int × Int)) (n : Nat),
      l.foldl (fun wallCount d =>
        let ux := c.x + d.1
        let uy := c.y + d.2
        if 0 ≤ ux ∧ 0 ≤ uy ∧ uy < (H : Int) ∧ ux < (W : Int) ∧
            cellAt g ⟨ux, uy⟩ = 1
        then wallCount + 1 else wallCount) n
      = n + l.countP (fun d =>
          let ux := c.x + d.1
          let uy := c.y + d.2
          decide (0 ≤ ux ∧ 0 ≤ uy ∧ uy < (H : Int) ∧ ux < (W : Int) ∧
            cellAt g ⟨ux, uy⟩ = 1)) := by
  intro l
  induction l with
  | nil => intro n; simp
  | cons x xs ih =>
    intro n
    by_cases h : 0 ≤ c.x + x.1 ∧ 0 ≤ c.y + x.2 ∧ c.y + x.2 < (H : Int) ∧
        c.x + x.1 < (W : Int) ∧ cellAt g ⟨c.x + x.1, c.y + x.2⟩ = 1
    · simp [List.countP_cons, h, ih]
      omega
    · simp [List.countP_cons, h, ih]

/-- C6, amended: the acceptance test accepts a coordinate exactly when it
has at most two wall neighbors **among its in-bounds axis-aligned
neighbors**; an out-of-bounds neighbor is not counted at all (in
particular, it is not counted as a wall). -/
theorem isValidStartEndPoint_iff (W H : Nat) (g : Board) (c : Coordinate) :
    MazeGenerator.isValidStartEndPoint MazeGenerator.directions W H g c = true ↔
    MazeGenerator.inBoundsWallCount W H g c ≤ 2 := by
  unfold MazeGenerator.isValidStartEndPoint MazeGenerator.inBoundsWallCount
  rw [foldl_wallCount]
  simp

/-- C6, counterexample: on the 3×3 all-wall grid with a single carved
center, the top boundary cell `(1,0)` has two in-bounds wall neighbors and
one out-of-bounds neighbor.  The source accepts it (count 2 ≤ 2), while
the claim's reading — out-of-bounds neighbors count as walls — totals 3 and
demands rejection.  So acceptance is *not* equivalent to the claim's
count being at most 2. -/
theorem isValidStartEndPoint_spec_mismatch :
    MazeGenerator.isValidStartEndPoint MazeGenerator.directions 3 3
      [[1, 1, 1], [1, 0, 1], [1, 1, 1]] ⟨1, 0⟩ = true ∧
    ¬ MazeGenerator.specWallCountOOB 3 3
      [[1, 1, 1], [1, 0, 1], [1, 1, 1]] ⟨1, 0⟩ ≤ 2 := by
  decide

/-! ## The placement attempt budget (claim C8) -/

/-- The sampling loop, for any remaining budget `r`: a success is an
accepted coordinate found within `r` draws, and failure means every one of
the `r` sampled coordinates was rejected. -/
theorem secLoop_spec (dirs : List (Int × Int)) (W H : Nat) (g : Board)
    (side : MazeGenerator.Side) (ρ : Nat → Nat) :
    ∀ r i : Nat,
      (∀ c i', MazeGenerator.secLoop dirs W H g side ρ r i = some (c, i') →
        MazeGenerator.isValidStartEndPoint dirs W H g c = true ∧ i' ≤ i + r) ∧
      (MazeGenerator.secLoop dirs W H g side ρ r i = none ↔
        ∀ k, k < r → MazeGenerator.isValidStartEndPoint dirs W H g
          (MazeGenerator.getRandomSizeCoordinate W H side (ρ (i + k))) = false) := by
  intro r
  induction r with
  | zero =>
    intro i
    constructor
    · intro c i' h
      simp [MazeGenerator.secLoop] at h
    · simp [MazeGenerator.secLoop]
  | succ r ih =>
    intro i
    by_cases hv : MazeGenerator.isValidStartEndPoint dirs W H g
        (MazeGenerator.getRandomSizeCoordinate W H side (ρ i)) = true
    · constructor
      · intro c i' h
        simp [MazeGenerator.secLoop, hv] at h
        refine ⟨h.1 ▸ hv, ?_⟩
        omega
      · constructor
        · intro h
          simp [MazeGenerator.secLoop, hv] at h
        · intro h
          have h0 := h 0 (Nat.succ_pos r)
          simp at h0
          rw [h0] at hv
          exact absurd hv (by simp)
    · have hv' : MazeGenerator.isValidStartEndPoint dirs W H g
          (MazeGenerator.getRandomSizeCoordinate W H side (ρ i)) = false := by
        simpa using hv
      constructor
      · intro c i' h
        simp [MazeGenerator.secLoop, hv'] at h
        obtain ⟨hc, hle⟩ := (ih (i + 1)).1 c i' h
        exact ⟨hc, by omega⟩
      · constructor
        · intro h
          simp [MazeGenerator.secLoop, hv'] at h
          intro k hk
          match k with
          | 0 => simpa using hv'
          | k + 1 =>
            have := ((ih (i + 1)).2.mp h) k (by omega)
            simpa [Nat.add_assoc, Nat.add_comm 1 k] using this
        · intro h
          simp [MazeGenerator.secLoop, hv']
          apply (ih (i + 1)).2.mpr
          intro k hk
          have := h (k + 1) (by omega)
          simpa [Nat.add_assoc, Nat.add_comm 1 k] using this

/-- C8: for any grid state, side and random draws, one run of
`createStartAndEndCoordinate` consumes at most 100 samples (the returned
draw index advances by at most 100), a success always returns an accepted
coordinate, and the generation error (`none`) is raised exactly when all
100 sampled coordinates were rejected — there is no further retrying. -/
theorem createStartAndEndCoordinate_budget (dirs : List (Int × Int))
    (W H : Nat) (g : Board) (side : MazeGenerator.Side) (ρ : Nat → Nat) (i : Nat) :
    (∀ c i', MazeGenerator.createStartAndEndCoordinate dirs W H g side ρ i = some (c, i') →
      MazeGenerator.isValidStartEndPoint dirs W H g c = true ∧ i' ≤ i + 100) ∧
    (MazeGenerator.createStartAndEndCoordinate dirs W H g side ρ i = none ↔
      ∀ k, k < 100 → MazeGenerator.isValidStartEndPoint dirs W H g
        (MazeGenerator.getRandomSizeCoordinate W H side (ρ (i + k))) = false) :=
  secLoop_spec dirs W H g side ρ 100 i

/-- Witness for C8: on a 3×3 grid with carved center, sampling with the
all-zero oracle accepts the very first coordinate, within the budget. -/
theorem createStartAndEndCoordinate_budget_witness :
    MazeGenerator.isValidStartEndPoint MazeGenerator.directions 3 3
      [[1, 1, 1], [1, 0, 1], [1, 1, 1]] ⟨1, 0⟩ = true ∧ 1 ≤ 0 + 100 :=
  (createStartAndEndCoordinate_budget MazeGenerator.directions 3 3
    [[1, 1, 1], [1, 0, 1], [1, 1, 1]] MazeGenerator.Side.top (fun _ => 0) 0).1
    ⟨1, 0⟩ 1 (by decide)

/-! ## The degenerate solve (claim C10) -/

/-- C10: when the entrance equals the exit, the very first dequeue pops the
entrance, the goal test fires before any neighbor is generated, and the
reconstructed path is the single-element list `[entrance]`.  One unit of
loop fuel — one iteration, with no expansion — suffices. -/
theorem findPath_entrance_eq_exit (m : Maze) (h : m.start = m.endc) :
    findPath m 1 = some (some [m.start]) := by
  simp [findPath, astarLoop, initState, buildPath, h]

/-- Witness for C10: the one-cell maze whose entrance and exit coincide. -/
theorem findPath_entrance_eq_exit_witness :
    findPath ⟨[[0]], ⟨0, 0⟩, ⟨0, 0⟩⟩ 1 = some (some [⟨0, 0⟩]) :=
  findPath_entrance_eq_exit ⟨[[0]], ⟨0, 0⟩, ⟨0, 0⟩⟩ rfl

/-! ## The carving phase misses lattice cells (claim C5) -/

/-- C5: contrary to the claim (and to the repository's own README, which
asserts that the carving visits every cell), the carving phase can leave
odd-odd interior cells as walls.  `recursiveBacktrack` iterates `for … of`
over the module-level `directions` array while its own recursive calls
re-shuffle that array in place, so a parent invocation can miss a
direction entirely.  Under the concrete draws `rhoFail`, the 7×7 run
carves only six of the nine lattice cells: the whole bottom lattice row,
for example `(1,5)` and `(5,5)`, is never reached. -/
theorem carvePhase_misses_lattice_cells :
    MazeGenerator.carvePhase 7 7 MazeGenerator.rhoFail =
      some MazeGenerator.carveFail ∧
    cellAt MazeGenerator.carveFail ⟨1, 5⟩ = 1 ∧
    cellAt MazeGenerator.carveFail ⟨5, 5⟩ = 1 := by
  decide

/-! ## Basic facts: neighbors, heuristic, reachability, the frontier -/

theorem self_not_mem_getNeighbors (c : Coordinate) : c ∉ getNeighbors c := by
  rcases c with ⟨cx, cy⟩
  intro h
  simp only [getNeighbors, List.mem_cons, List.not_mem_nil, or_false,
    Coordinate.mk.injEq] at h
  omega

theorem mem_getNeighbors_unit {c d : Coordinate} (h : d ∈ getNeighbors c) :
    (d.x - c.x).natAbs + (d.y - c.y).natAbs = 1 := by
  rcases c with ⟨cx, cy⟩
  simp only [getNeighbors, List.mem_cons, List.not_mem_nil, or_false] at h
  rcases h with h | h | h | h <;> subst h <;> simp

theorem getNeighbors_symm {c d : Coordinate} (h : d ∈ getNeighbors c) :
    c ∈ getNeighbors d := by
  rcases c with ⟨cx, cy⟩
  simp only [getNeighbors, List.mem_cons, List.not_mem_nil, or_false] at h
  rcases h with h | h | h | h <;> subst h <;>
    simp [getNeighbors, Coordinate.mk.injEq]

theorem heuristic_self (c : Coordinate) : heuristic c c = 0 := by
  simp [heuristic]

theorem heuristic_triangle (a b c : Coordinate) :
    heuristic a c ≤ heuristic a b + heuristic b c := by
  have hx : (a.x - c.x).natAbs ≤ (a.x - b.x).natAbs + (b.x - c.x).natAbs := by
    have h : a.x - c.x = (a.x - b.x) + (b.x - c.x) := by ring
    rw [h]
    exact Int.natAbs_add_le _ _
  have hy : (a.y - c.y).natAbs ≤ (a.y - b.y).natAbs + (b.y - c.y).natAbs := by
    have h : a.y - c.y = (a.y - b.y) + (b.y - c.y) := by ring
    rw [h]
    exact Int.natAbs_add_le _ _
  simp only [heuristic]
  omega

theorem heuristic_nbr {c d : Coordinate} (h : d ∈ getNeighbors c) :
    heuristic c d = 1 := by
  rcases c with ⟨cx, cy⟩
  simp only [getNeighbors, List.mem_cons, List.not_mem_nil, or_false] at h
  rcases h with h | h | h | h <;> subst h <;> simp [heuristic]

theorem reachFrom_zero {m : Maze} {src c : Coordinate}
    (h : ReachFrom m src 0 c) : c = src := by
  cases h
  rfl

theorem reachFrom_trans {m : Maze} {a b c : Coordinate} {n k : Nat}
    (h1 : ReachFrom m a n b) (h2 : ReachFrom m b k c) :
    ReachFrom m a (n + k) c := by
  induction h2 with
  | zero => simpa using h1
  | succ hprev hmem hvalid ih => exact ReachFrom.succ ih hmem hvalid

theorem reachFrom_valid {m : Maze} {src c : Coordinate} {n : Nat}
    (h : ReachFrom m src n c) : c = src ∨ m.isValidMove c = true := by
  cases h with
  | zero => exact Or.inl rfl
  | succ hprev hmem hvalid => exact Or.inr hvalid

theorem heuristic_le_of_reachFrom {m : Maze} {src c : Coordinate} {k : Nat}
    (h : ReachFrom m src k c) : heuristic src c ≤ k := by
  induction h with
  | zero => simp [heuristic]
  | @succ n cmid d hprev hmem hvalid ih =>
    have htri := heuristic_triangle src cmid d
    have hone := heuristic_nbr hmem
    omega

theorem reachFrom_succ_decomp {m : Maze} {src : Coordinate} :
    ∀ {k c}, ReachFrom m src k c → ∀ {n}, k = n + 1 →
      ∃ t, t ∈ getNeighbors src ∧ m.isValidMove t = true ∧ ReachFrom m t n c := by
  intro k c h
  induction h with
  | zero => intro n hn; omega
  | @succ kp cmid d hprev hmem hvalid ih =>
    intro n hn
    match kp, hprev with
    | 0, hprev =>
      have hc : cmid = src := reachFrom_zero hprev
      subst hc
      have hn0 : n = 0 := by omega
      subst hn0
      exact ⟨d, hmem, hvalid, ReachFrom.zero⟩
    | j + 1, hprev =>
      obtain ⟨t, ht1, ht2, ht3⟩ := ih rfl
      have hnj : n = j + 1 := by omega
      subst hnj
      exact ⟨t, ht1, ht2, ReachFrom.succ ht3 hmem hvalid⟩

theorem mem_pqEnqueue {q : List (Coordinate × Nat)} {e a : Coordinate × Nat} :
    a ∈ pqEnqueue q e ↔ a ∈ q ∨ a = e := by
  induction q with
  | nil => simp [pqEnqueue]
  | cons x xs ih =>
    by_cases h : x.2 ≤ e.2 <;> simp [pqEnqueue, h, ih] <;> tauto

theorem pqEnqueue_sorted {q : List (Coordinate × Nat)} {e : Coordinate × Nat}
    (hs : q.Pairwise (fun p q : Coordinate × Nat => p.2 ≤ q.2)) :
    (pqEnqueue q e).Pairwise (fun p q : Coordinate × Nat => p.2 ≤ q.2) := by
  induction q with
  | nil => simp [pqEnqueue]
  | cons x xs ih =>
    rcases List.pairwise_cons.mp hs with ⟨hx, hxs⟩
    by_cases h : x.2 ≤ e.2
    · simp only [pqEnqueue, if_pos h]
      refine List.pairwise_cons.mpr ⟨?_, ih hxs⟩
      intro b hb
      rcases mem_pqEnqueue.mp hb with hb | hb
      · exact hx b hb
      · subst hb; exact h
    · simp only [pqEnqueue, if_neg h]
      refine List.pairwise_cons.mpr ⟨?_, hs⟩
      intro b hb
      rcases List.mem_cons.mp hb with hb | hb
      · subst hb; omega
      · have := hx b hb; omega

theorem mapSet_eq {α : Type} (f : Coordinate → Option α) (k : Coordinate) (v : α) :
    mapSet f k v k = some v := by
  simp [mapSet]

theorem mapSet_ne {α : Type} (f : Coordinate → Option α) (k : Coordinate) (v : α)
    {c : Coordinate} (h : c ≠ k) : mapSet f k v c = f c := by
  simp [mapSet, h]

/-! ## One neighbor relaxation -/

/-- Case analysis of one relaxation: either the state is returned untouched
(invalid neighbor, or no strict improvement), or the guarded update runs,
rewriting the three maps at `neighbor` and enqueueing it at its new
`fScore`. -/
theorem relax_split (m : Maze) (u : Coordinate) (s : AState) (n : Coordinate) :
    (relaxNeighbor m u s n = s ∧
      (m.isValidMove n = false ∨
        ∃ gn, s.gScore n = some gn ∧ gn ≤ (s.gScore u).getD 0 + 1)) ∨
    (m.isValidMove n = true ∧
      (s.gScore n = none ∨
        ∃ gn, s.gScore n = some gn ∧ (s.gScore u).getD 0 + 1 < gn) ∧
      relaxNeighbor m u s n =
        { openSet := pqEnqueue s.openSet
            (n, (s.gScore u).getD 0 + 1 + heuristic n m.endc)
          parentMap := mapSet s.parentMap n u
          gScore := mapSet s.gScore n ((s.gScore u).getD 0 + 1)
          fScore := mapSet s.fScore n
            ((s.gScore u).getD 0 + 1 + heuristic n m.endc) }) := by
  by_cases hv : m.isValidMove n = true
  · cases hgn : s.gScore n with
    | none =>
      right
      refine ⟨hv, Or.inl rfl, ?_⟩
      simp [relaxNeighbor, hv, hgn]
    | some gn =>
      by_cases hlt : (s.gScore u).getD 0 + 1 < gn
      · right
        refine ⟨hv, Or.inr ⟨gn, rfl, hlt⟩, ?_⟩
        simp [relaxNeighbor, hv, hgn, hlt]
      · left
        refine ⟨?_, Or.inr ⟨gn, rfl, by omega⟩⟩
        simp [relaxNeighbor, hv, hgn, hlt]
  · left
    have hv' : m.isValidMove n = false := by simpa using hv
    refine ⟨?_, Or.inl hv'⟩
    simp [relaxNeighbor, hv']

/-- One relaxation of a neighbor of `u` preserves the core invariant, and
does not move `u`'s own score. -/
theorem relax_core {m : Maze} {u : Coordinate} {vu : Nat} {s : AState}
    {n : Coordinate} (hn : n ∈ getNeighbors u) (hcore : AInvCore m s)
    (hu : s.gScore u = some vu) :
    AInvCore m (relaxNeighbor m u s n) ∧
    (relaxNeighbor m u s n).gScore u = some vu := by
  rcases relax_split m u s n with ⟨heq, _⟩ | ⟨hv, hcond, heq⟩
  · rw [heq]; exact ⟨hcore, hu⟩
  · have hnu : n ≠ u := fun h => self_not_mem_getNeighbors u (h ▸ hn)
    have htv : (s.gScore u).getD 0 + 1 = vu + 1 := by rw [hu]; rfl
    rw [heq, htv]
    constructor
    · refine ⟨?_, ?_, ?_, ?_, ?_, ?_, ?_, ?_, ?_, ?_⟩ <;> dsimp only
      · -- sorted
        exact pqEnqueue_sorted hcore.sorted
      · -- qg
        intro z pri hz
        by_cases hzn : z = n
        · subst hzn; exact ⟨vu + 1, mapSet_eq _ _ _⟩
        · rw [mapSet_ne _ _ _ hzn]
          rcases mem_pqEnqueue.mp hz with hz | hz
          · exact hcore.qg z pri hz
          · exact absurd (congrArg Prod.fst hz) hzn
      · -- exitPri
        intro pri hz
        by_cases hne : n = m.endc
        · subst hne
          refine ⟨vu + 1, mapSet_eq _ _ _, ?_⟩
          rcases mem_pqEnqueue.mp hz with hz | hz
          · obtain ⟨v0, hv0, hle⟩ := hcore.exitPri pri hz
            rcases hcond with hnone | ⟨gn, hgn, hlt⟩
            · rw [hv0] at hnone; cases hnone
            · rw [hv0] at hgn
              have : v0 = gn := by injection hgn
              omega
          · have hpe : pri = vu + 1 + heuristic m.endc m.endc :=
              congrArg Prod.snd hz
            rw [hpe, heuristic_self]
        · rw [mapSet_ne _ _ _ (fun h : m.endc = n => hne h.symm)]
          rcases mem_pqEnqueue.mp hz with hz | hz
          · exact hcore.exitPri pri hz
          · exact absurd (congrArg Prod.fst hz).symm hne
      · -- gStart
        by_cases hns : n = m.start
        · exfalso
          rcases hcond with hnone | ⟨gn, hgn, hlt⟩
          · rw [hns, hcore.gStart] at hnone; cases hnone
          · rw [hns, hcore.gStart] at hgn
            have : gn = 0 := by injection hgn with h; omega
            omega
        · rw [mapSet_ne _ _ _ (fun h : m.start = n => hns h.symm)]
          exact hcore.gStart
      · -- gValid
        intro z v hz
        by_cases hzn : z = n
        · subst hzn; exact Or.inr hv
        · rw [mapSet_ne _ _ _ hzn] at hz; exact hcore.gValid z v hz
      · -- gReach
        intro z v hz
        by_cases hzn : z = n
        · subst hzn
          rw [mapSet_eq] at hz
          obtain ⟨k, hk, hr⟩ := hcore.gReach u vu hu
          have hv' : v = vu + 1 := by injection hz with h; omega
          exact ⟨k + 1, by omega, ReachFrom.succ hr hn hv⟩
        · rw [mapSet_ne _ _ _ hzn] at hz; exact hcore.gReach z v hz
      · -- endPending
        intro v hz
        by_cases hne : n = m.endc
        · exact ⟨vu + 1 + heuristic n m.endc, hne ▸ mem_pqEnqueue.mpr (Or.inr rfl)⟩
        · rw [mapSet_ne _ _ _ (fun h : m.endc = n => hne h.symm)] at hz
          obtain ⟨pri, hp⟩ := hcore.endPending v hz
          exact ⟨pri, mem_pqEnqueue.mpr (Or.inl hp)⟩
      · -- pStart
        by_cases hns : n = m.start
        · exfalso
          rcases hcond with hnone | ⟨gn, hgn, hlt⟩
          · rw [hns, hcore.gStart] at hnone; cases hnone
          · rw [hns, hcore.gStart] at hgn
            have : gn = 0 := by injection hgn with h; omega
            omega
        · rw [mapSet_ne _ _ _ (fun h : m.start = n => hns h.symm)]
          exact hcore.pStart
      · -- pProp
        intro z u' hz
        by_cases hzn : z = n
        · subst hzn
          rw [mapSet_eq] at hz
          have hu' : u' = u := by injection hz with h; exact h.symm
          subst hu'
          refine ⟨vu + 1, vu, mapSet_eq _ _ _, ?_, by omega, hn, hv⟩
          rw [mapSet_ne _ _ _ hnu.symm]
          exact hu
        · rw [mapSet_ne _ _ _ hzn] at hz
          obtain ⟨vz, vu', hgz, hgu', hlt', hmem', hval'⟩ := hcore.pProp z u' hz
          by_cases hun : u' = n
          · subst hun
            rcases hcond with hnone | ⟨gn, hgn, hlt⟩
            · rw [hgu'] at hnone; cases hnone
            · rw [hgu'] at hgn
              have hvg : vu' = gn := by injection hgn
              refine ⟨vz, vu + 1, ?_, mapSet_eq _ _ _, by omega, hmem', hval'⟩
              rw [mapSet_ne _ _ _ hzn]
              exact hgz
          · refine ⟨vz, vu', ?_, ?_, hlt', hmem', hval'⟩
            · rw [mapSet_ne _ _ _ hzn]; exact hgz
            · rw [mapSet_ne _ _ _ hun]; exact hgu'
      · -- pEx
        intro z v hz hzs
        by_cases hzn : z = n
        · subst hzn; exact ⟨u, mapSet_eq _ _ _⟩
        · rw [mapSet_ne _ _ _ hzn] at hz
          obtain ⟨u', hu'⟩ := hcore.pEx z v hz hzs
          exact ⟨u', by rw [mapSet_ne _ _ _ hzn]; exact hu'⟩
    · -- u's score is untouched
      dsimp only
      rw [mapSet_ne _ _ _ hnu.symm]
      exact hu

/-- Folding the relaxation over any set of neighbors of `u` preserves the
core invariant and `u`'s score. -/
theorem foldl_relax_core {m : Maze} {u : Coordinate} {vu : Nat} :
    ∀ (l : List Coordinate) (s : AState), (∀ n ∈ l, n ∈ getNeighbors u) →
      AInvCore m s → s.gScore u = some vu →
      AInvCore m (l.foldl (relaxNeighbor m u) s) ∧
      (l.foldl (relaxNeighbor m u) s).gScore u = some vu := by
  intro l
  induction l with
  | nil => intro s _ hc hu; exact ⟨hc, hu⟩
  | cons x xs ih =>
    intro s hl hc hu
    have hx := relax_core (hl x (List.mem_cons_self x xs)) hc hu
    exact ih _ (fun n hn => hl n (List.mem_cons_of_mem x hn)) hx.1 hx.2

/-- A relaxation never removes frontier entries. -/
theorem relax_openSet_mono {m : Maze} {u : Coordinate} {s : AState}
    {n : Coordinate} {e : Coordinate × Nat} (he : e ∈ s.openSet) :
    e ∈ (relaxNeighbor m u s n).openSet := by
  rcases relax_split m u s n with ⟨heq, _⟩ | ⟨_, _, heq⟩ <;> rw [heq]
  · exact he
  · exact mem_pqEnqueue.mpr (Or.inl he)

/-- Neither does a whole expansion. -/
theorem foldl_relax_openSet_mono {m : Maze} {u : Coordinate} :
    ∀ (l : List Coordinate) (s : AState) {e : Coordinate × Nat},
      e ∈ s.openSet → e ∈ (l.foldl (relaxNeighbor m u) s).openSet := by
  intro l
  induction l with
  | nil => intro s e he; exact he
  | cons x xs ih => intro s e he; exact ih _ (relax_openSet_mono he)

/-- If a relaxation records a score, either it was already recorded, or the
cell has just been enqueued at priority score-plus-heuristic. -/
theorem relax_gNew {m : Maze} {u : Coordinate} {s : AState} {n : Coordinate}
    {z : Coordinate} {v : Nat}
    (hz : (relaxNeighbor m u s n).gScore z = some v) :
    s.gScore z = some v ∨
      (z, v + heuristic z m.endc) ∈ (relaxNeighbor m u s n).openSet := by
  rcases relax_split m u s n with ⟨heq, _⟩ | ⟨_, _, heq⟩ <;> rw [heq] at hz ⊢
  · exact Or.inl hz
  · dsimp only at hz ⊢
    by_cases hzn : z = n
    · subst hzn
      rw [mapSet_eq] at hz
      have hv : v = (s.gScore u).getD 0 + 1 := by injection hz with h; omega
      right
      subst hv
      exact mem_pqEnqueue.mpr (Or.inr rfl)
    · rw [mapSet_ne _ _ _ hzn] at hz
      exact Or.inl hz

/-- Across a whole expansion: any recorded score was either recorded before
the expansion or its cell sits in the expanded frontier at priority
score-plus-heuristic. -/
theorem foldl_relax_gTrace {m : Maze} {u : Coordinate} :
    ∀ (l : List Coordinate) (s : AState) {z : Coordinate} {v : Nat},
      (l.foldl (relaxNeighbor m u) s).gScore z = some v →
      s.gScore z = some v ∨
        (z, v + heuristic z m.endc) ∈ (l.foldl (relaxNeighbor m u) s).openSet := by
  intro l
  induction l with
  | nil => intro s z v hz; exact Or.inl hz
  | cons x xs ih =>
    intro s z v hz
    rcases ih (relaxNeighbor m u s x) hz with h1 | h1
    · rcases relax_gNew h1 with h2 | h2
      · exact Or.inl h2
      · exact Or.inr (foldl_relax_openSet_mono xs _ h2)
    · exact Or.inr h1

/-- A score that is already optimal (it equals the length of a shortest
walk to its cell) can never be improved, so a relaxation keeps it. -/
theorem relax_preserves_optimal {m : Maze} {u : Coordinate} {vu : Nat}
    {s : AState} {n z : Coordinate} {v : Nat}
    (hu : s.gScore u = some vu)
    (hgr : ∀ z v, s.gScore z = some v → ∃ k, k ≤ v ∧ ReachN m k z)
    (hn : n ∈ getNeighbors u)
    (hz : s.gScore z = some v) (hmin : ∀ k, ReachN m k z → v ≤ k) :
    (relaxNeighbor m u s n).gScore z = some v := by
  rcases relax_split m u s n with ⟨heq, _⟩ | ⟨hv, hcond, heq⟩ <;> rw [heq]
  · exact hz
  · by_cases hzn : z = n
    · subst hzn
      exfalso
      obtain ⟨k, hk, hr⟩ := hgr u vu hu
      have hge : v ≤ k + 1 := hmin _ (ReachFrom.succ hr hn hv)
      rcases hcond with hnone | ⟨gn, hgn, hlt⟩
      · rw [hz] at hnone; cases hnone
      · rw [hz] at hgn
        have hvg : v = gn := by injection hgn
        rw [hu] at hlt
        simp only [Option.getD_some] at hlt
        omega
    · dsimp only
      rw [mapSet_ne _ _ _ hzn]
      exact hz

/-- Optimal scores survive a whole expansion. -/
theorem foldl_relax_preserves_optimal {m : Maze} {u : Coordinate} {vu : Nat}
    {z : Coordinate} {v : Nat} :
    ∀ (l : List Coordinate) (s : AState), (∀ x ∈ l, x ∈ getNeighbors u) →
      AInvCore m s → s.gScore u = some vu →
      s.gScore z = some v → (∀ k, ReachN m k z → v ≤ k) →
      (l.foldl (relaxNeighbor m u) s).gScore z = some v := by
  intro l
  induction l with
  | nil => intro s _ _ _ hz _; exact hz
  | cons x xs ih =>
    intro s hl hc hu hz hmin
    have hx := relax_core (hl x (List.mem_cons_self x xs)) hc hu
    exact ih _ (fun y hy => hl y (List.mem_cons_of_mem x hy)) hx.1 hx.2
      (relax_preserves_optimal hu hc.gReach (hl x (List.mem_cons_self x xs)) hz hmin)
      hmin

/-- Expanding `u` (whose score `vu` is arbitrary) completes the relaxation
of every listed neighbor `n` whose true distance is `vu + 1`: afterwards
`n` carries exactly the score `vu + 1`. -/
theorem foldl_relax_completes {m : Maze} {u : Coordinate} {vu : Nat} :
    ∀ (l : List Coordinate) (s : AState), (∀ x ∈ l, x ∈ getNeighbors u) →
      AInvCore m s → s.gScore u = some vu →
      ∀ n ∈ l, m.isValidMove n = true → ReachN m (vu + 1) n →
        (∀ k, ReachN m k n → vu + 1 ≤ k) →
        (l.foldl (relaxNeighbor m u) s).gScore n = some (vu + 1) := by
  intro l
  induction l with
  | nil => intro s _ _ _ n hn; cases hn
  | cons x xs ih =>
    intro s hl hc hu n hn hvn hrn hminn
    have hmemx := hl x (List.mem_cons_self x xs)
    have hx := relax_core hmemx hc hu
    rcases List.mem_cons.mp hn with hnx | hnx
    · subst hnx
      have hstep : (relaxNeighbor m u s n).gScore n = some (vu + 1) := by
        rcases relax_split m u s n with ⟨heq, hc2⟩ | ⟨hv2, hc2, heq⟩ <;> rw [heq]
        · rcases hc2 with hinv | ⟨gn, hgn, hle⟩
          · rw [hvn] at hinv; cases hinv
          · obtain ⟨k, hk, hr⟩ := hc.gReach n gn hgn
            have h1 := hminn k hr
            rw [hu] at hle
            simp only [Option.getD_some] at hle
            have : gn = vu + 1 := by omega
            rw [hgn, this]
        · dsimp only
          rw [mapSet_eq, hu]
          rfl
      exact foldl_relax_preserves_optimal xs _
        (fun y hy => hl y (List.mem_cons_of_mem _ hy)) hx.1 hx.2 hstep hminn
    · exact ih _ (fun y hy => hl y (List.mem_cons_of_mem _ hy)) hx.1 hx.2
        n hnx hvn hrn hminn

/-- One full loop step — pop `u` (not the exit) and relax its four
neighbors — preserves the full invariant. -/
theorem step_preserves {m : Maze} {s : AState} {u : Coordinate} {pri0 : Nat}
    {rest : List (Coordinate × Nat)} (hq : s.openSet = (u, pri0) :: rest)
    (hInv : AInv m s) (hne : u ≠ m.endc) :
    AInv m ((getNeighbors u).foldl (relaxNeighbor m u)
      { s with openSet := rest }) := by
  obtain ⟨hcore, hinvC⟩ := hInv
  obtain ⟨vu, hu⟩ := hcore.qg u pri0 (by rw [hq]; exact List.mem_cons_self _ _)
  have hcore0 : AInvCore m { s with openSet := rest } := by
    refine ⟨?_, ?_, ?_, hcore.gStart, hcore.gValid, hcore.gReach, ?_,
      hcore.pStart, hcore.pProp, hcore.pEx⟩
    · have := hq ▸ hcore.sorted
      exact (List.pairwise_cons.mp this).2
    · intro z pri hz
      exact hcore.qg z pri (by rw [hq]; exact List.mem_cons_of_mem _ hz)
    · intro pri hz
      exact hcore.exitPri pri (by rw [hq]; exact List.mem_cons_of_mem _ hz)
    · intro v hv
      obtain ⟨pri, hp⟩ := hcore.endPending v hv
      rw [hq] at hp
      rcases List.mem_cons.mp hp with hp | hp
      · exact absurd (congrArg Prod.fst hp) hne.symm
      · exact ⟨pri, hp⟩
  have hu0 : ({ s with openSet := rest } : AState).gScore u = some vu := hu
  have hfold := foldl_relax_core (getNeighbors u) _ (fun n hn => hn) hcore0 hu0
  refine ⟨hfold.1, ?_⟩
  intro z v hgz hrz hminz
  rcases foldl_relax_gTrace (getNeighbors u) _ hgz with hold | hentry
  · -- the score did not change over the step
    rcases hinvC z v hold hrz hminz with ⟨priz, hpz, hple⟩ | hsucc
    · rw [hq] at hpz
      rcases List.mem_cons.mp hpz with hhead | hrest
      · -- the popped entry was the queue witness: z = u was just expanded
        have hzu : z = u := congrArg Prod.fst hhead
        have hvu : v = vu := by
          rw [hzu] at hold
          have h2 := hold.symm.trans hu
          injection h2
        right
        intro n hn hvn hrn hminn
        rw [hzu] at hn
        rw [hvu] at hrn hminn ⊢
        exact foldl_relax_completes (getNeighbors u) _ (fun y hy => hy)
          hcore0 hu0 n hn hvn hrn hminn
      · exact Or.inl ⟨priz,
          foldl_relax_openSet_mono (getNeighbors u) _ hrest, hple⟩
    · right
      intro n hn hvn hrn hminn
      exact foldl_relax_preserves_optimal (getNeighbors u) _ (fun y hy => hy)
        hcore0 hu0 (hsucc n hn hvn hrn hminn) hminn
  · exact Or.inl ⟨v + heuristic z m.endc, hentry, Nat.le_refl _⟩

/-- The initial solver state satisfies the invariant. -/
theorem AInv_init (m : Maze) : AInv m (initState m) := by
  constructor
  · refine ⟨?_, ?_, ?_, ?_, ?_, ?_, ?_, ?_, ?_, ?_⟩ <;> dsimp only [initState]
    · simp
    · intro z pri hz
      simp only [List.mem_singleton, Prod.mk.injEq] at hz
      exact ⟨0, by simp [hz.1]⟩
    · intro pri hz
      simp only [List.mem_singleton, Prod.mk.injEq] at hz
      exact ⟨0, by simp [hz.1], by omega⟩
    · simp
    · intro z v hz
      by_cases hzs : z = m.start
      · exact Or.inl hzs
      · rw [if_neg hzs] at hz; cases hz
    · intro z v hz
      by_cases hzs : z = m.start
      · subst hzs
        exact ⟨0, Nat.zero_le _, ReachFrom.zero⟩
      · rw [if_neg hzs] at hz; cases hz
    · intro v hv
      by_cases hes : m.endc = m.start
      · exact ⟨0, by simp [hes]⟩
      · rw [if_neg hes] at hv; cases hv
    · intro z u hz; cases hz
    · intro z v hz hzs
      rw [if_neg hzs] at hz; cases hz
  · intro z v hz hrz hminz
    dsimp only [initState] at hz
    by_cases hzs : z = m.start
    · subst hzs
      rw [if_pos rfl] at hz
      have hv0 : v = 0 := by injection hz with h; omega
      subst hv0
      exact Or.inl ⟨0, by simp [initState], Nat.zero_le _⟩
    · rw [if_neg hzs] at hz; cases hz

/-- Walking down a shortest path to the exit: as long as the invariant
holds, either the exit already carries its optimal score, or the frontier
holds an entry whose priority is at most the shortest distance `D`. -/
theorem walk_aux {m : Maze} {s : AState}
    (hC : InvCProp m s) {D : Nat} (hmin : ∀ k, ReachN m k m.endc → D ≤ k) :
    ∀ k c j, j + k = D → ReachFrom m c k m.endc → ReachN m j c →
      (∀ k', ReachN m k' c → j ≤ k') → s.gScore c = some j →
      s.gScore m.endc = some D ∨ ∃ w pri, (w, pri) ∈ s.openSet ∧ pri ≤ D := by
  intro k
  induction k with
  | zero =>
    intro c j hjk hreach hrc hminc hgc
    have hc : m.endc = c := reachFrom_zero hreach
    left
    rw [hc]
    have hj : j = D := by omega
    rw [← hj]
    exact hgc
  | succ k ih =>
    intro c j hjk hreach hrc hminc hgc
    obtain ⟨t, htm, htv, htr⟩ := reachFrom_succ_decomp hreach rfl
    have hrt : ReachN m (j + 1) t := ReachFrom.succ hrc htm htv
    have hmint : ∀ k', ReachN m k' t → j + 1 ≤ k' := by
      intro k' hk'
      have h2 : ReachN m (k' + k) m.endc := reachFrom_trans hk' htr
      have := hmin _ h2
      omega
    rcases hC c j hgc hrc hminc with ⟨pric, hpc, hple⟩ | hsucc
    · right
      refine ⟨c, pric, hpc, ?_⟩
      have hh := heuristic_le_of_reachFrom hreach
      omega
    · exact ih t (j + 1) (by omega) htr hrt hmint (hsucc t htm htv hrt hmint)

/-- The walk lemma, started at the entrance. -/
theorem walk_lemma {m : Maze} {s : AState} (hInv : AInv m s) {D : Nat}
    (hD : IsShortestDist m D) :
    s.gScore m.endc = some D ∨ ∃ w pri, (w, pri) ∈ s.openSet ∧ pri ≤ D := by
  obtain ⟨hcore, hC⟩ := hInv
  exact walk_aux hC hD.2 D m.start 0 (by omega) hD.1 ReachFrom.zero
    (fun k' _ => Nat.zero_le k') hcore.gStart

/-- Whatever `buildPath` returns is a path from the entrance to `current`,
with unit neighbor steps, passable cells, and at most `gScore + 1`
coordinates. -/
theorem buildPath_sound {m : Maze} {s : AState} (hcore : AInvCore m s) :
    ∀ (fuel : Nat) (c : Coordinate) (p : List Coordinate),
      buildPath fuel s.parentMap c = some p → ∀ v, s.gScore c = some v →
      p.head? = some m.start ∧ p.getLast? = some c ∧ p.length ≤ v + 1 ∧
      (∀ x ∈ p, x = m.start ∨ m.isValidMove x = true) ∧
      List.Chain' (fun a b => b ∈ getNeighbors a) p ∧
      ReachN m (p.length - 1) c := by
  intro fuel
  induction fuel with
  | zero => intro c p hp; cases hp
  | succ fuel ih =>
    intro c p hp v hv
    cases hpar : s.parentMap c with
    | none =>
      have hc : c = m.start := by
        by_contra hne
        obtain ⟨u', hu'⟩ := hcore.pEx c v hv hne
        rw [hpar] at hu'; cases hu'
      rw [buildPath, hpar] at hp
      have hpc : p = [c] := by injection hp with h; exact h.symm
      subst hpc
      subst hc
      refine ⟨rfl, rfl, by simp, ?_, by simp, ReachFrom.zero⟩
      intro x hx
      rw [List.mem_singleton] at hx
      exact Or.inl hx
    | some u' =>
      obtain ⟨vz, vu, hgz, hgu, hlt, hmem, hval⟩ := hcore.pProp c u' hpar
      have hvz : vz = v := by
        have h2 := hgz.symm.trans hv
        injection h2
      rw [buildPath, hpar] at hp
      dsimp only at hp
      cases hq : buildPath fuel s.parentMap u' with
      | none =>
        rw [hq] at hp
        simp at hp
      | some p' =>
        rw [hq] at hp
        simp only [Option.map_some', Option.some.injEq] at hp
        subst hp
        obtain ⟨hhead, hlast, hlen, hmemb, hchain, hreach⟩ := ih u' p' hq vu hgu
        have hne' : p' ≠ [] := by
          intro h
          rw [h] at hhead
          cases hhead
        have hlenp : p'.length - 1 + 1 = p'.length :=
          Nat.succ_pred_eq_of_pos (List.length_pos.mpr hne')
        refine ⟨?_, ?_, ?_, ?_, ?_, ?_⟩
        · cases p' with
          | nil => exact absurd rfl hne'
          | cons a t => exact hhead
        · exact List.getLast?_concat _
        · simp only [List.length_append, List.length_singleton]
          omega
        · intro x hx
          rcases List.mem_append.mp hx with hx | hx
          · exact hmemb x hx
          · rw [List.mem_singleton] at hx
            subst hx
            exact Or.inr hval
        · rw [List.chain'_append]
          refine ⟨hchain, List.chain'_singleton c, ?_⟩
          intro x hx y hy
          rw [hlast] at hx
          simp only [Option.mem_def, Option.some.injEq] at hx
          simp only [List.head?_cons, Option.mem_def, Option.some.injEq] at hy
          subst hx
          subst hy
          exact hmem
        · have hl2 : (p' ++ [c]).length - 1 = p'.length := by
            simp only [List.length_append, List.length_singleton]
            omega
          rw [hl2]
          have h3 : ReachN m (p'.length - 1 + 1) c :=
            ReachFrom.succ hreach hmem hval
          rwa [hlenp] at h3

/-- `buildPath` succeeds whenever its fuel exceeds the `gScore` of the cell
it starts from (the parent chain strictly decreases the score). -/
theorem buildPath_total {m : Maze} {s : AState} (hcore : AInvCore m s) :
    ∀ v c, s.gScore c = some v → ∀ fuel, v < fuel →
      ∃ p, buildPath fuel s.parentMap c = some p := by
  intro v
  induction v using Nat.strong_induction_on with
  | _ v ih =>
    intro c hgc fuel hf
    match fuel, hf with
    | f + 1, hf =>
      cases hpar : s.parentMap c with
      | none => exact ⟨[c], by simp [buildPath, hpar]⟩
      | some u' =>
        obtain ⟨vz, vu, hgz, hgu, hlt, _, _⟩ := hcore.pProp c u' hpar
        have hvz : vz = v := by
          have h2 := hgz.symm.trans hgc
          injection h2
        obtain ⟨p', hp'⟩ := ih vu (by omega) u' hgu f (by omega)
        exact ⟨p' ++ [c], by simp [buildPath, hpar, hp']⟩

/-- Unfolding the loop on an empty frontier. -/
theorem astarLoop_succ_nil {m : Maze} {fuel : Nat} {s : AState}
    (hq : s.openSet = []) : astarLoop m (fuel + 1) s = some none := by
  rw [astarLoop, hq]

/-- Unfolding one loop step on a non-empty frontier. -/
theorem astarLoop_succ_cons {m : Maze} {fuel : Nat} {s : AState}
    {u : Coordinate} {pri0 : Nat} {rest : List (Coordinate × Nat)}
    (hq : s.openSet = (u, pri0) :: rest) :
    astarLoop m (fuel + 1) s =
      if u = m.endc then (buildPath (fuel + 1) s.parentMap u).map some
      else astarLoop m fuel
        ((getNeighbors u).foldl (relaxNeighbor m u) { s with openSet := rest }) := by
  rw [astarLoop, hq]

/-- Soundness of the loop: under the invariant, a returned path runs from
entrance to exit through valid neighbor moves and its move count equals
the shortest distance; a `null` return means the exit is unreachable. -/
theorem astarLoop_sound {m : Maze} :
    ∀ (fuel : Nat) (s : AState), AInv m s → ∀ r, astarLoop m fuel s = some r →
      (∀ p, r = some p →
        (PathProps m p ∧ ReachN m (p.length - 1) m.endc) ∧
        ∀ D, IsShortestDist m D → p.length = D + 1) ∧
      (r = none → ∀ k, ¬ ReachN m k m.endc) := by
  intro fuel
  induction fuel with
  | zero => intro s _ r hr; cases hr
  | succ fuel ih =>
    intro s hInv r hr
    cases hq : s.openSet with
    | nil =>
      rw [astarLoop_succ_nil hq] at hr
      have hrn : r = none := by injection hr with h; exact h.symm
      subst hrn
      constructor
      · intro p hp; cases hp
      · intro _ k hk
        have hex : ∃ n, ReachN m n m.endc := ⟨k, hk⟩
        haveI : DecidablePred (fun n => ReachN m n m.endc) :=
          fun n => Classical.dec _
        have hD : IsShortestDist m (Nat.find hex) :=
          ⟨Nat.find_spec hex, fun k' hk' => Nat.find_min' hex hk'⟩
        rcases walk_lemma hInv hD with hend | ⟨w, pri, hw, _⟩
        · obtain ⟨pri, hp⟩ := hInv.1.endPending _ hend
          rw [hq] at hp
          cases hp
        · rw [hq] at hw
          cases hw
    | cons head rest =>
      obtain ⟨u, pri0⟩ := head
      rw [astarLoop_succ_cons hq] at hr
      by_cases hue : u = m.endc
      · rw [if_pos hue] at hr
        cases hbp : buildPath (fuel + 1) s.parentMap u with
        | none => rw [hbp] at hr; cases hr
        | some p =>
          rw [hbp] at hr
          have hrp : r = some p := by injection hr with h; exact h.symm
          subst hrp
          obtain ⟨vend, hvend⟩ := hInv.1.qg u pri0
            (by rw [hq]; exact List.mem_cons_self _ _)
          obtain ⟨hhead, hlast, hlen, hmemb, hchain, hreach⟩ :=
            buildPath_sound hInv.1 (fuel + 1) u p hbp vend hvend
          constructor
          · intro p' hp'
            have hpp : p' = p := by injection hp' with h; exact h.symm
            subst hpp
            have hne' : p' ≠ [] := by
              intro h
              rw [h] at hhead
              cases hhead
            constructor
            · exact ⟨⟨hhead, hue ▸ hlast, hmemb, hchain⟩, hue ▸ hreach⟩
            · intro D hD
              -- the exit's score is exactly D when it is popped
              have hvD : vend = D := by
                rcases walk_lemma hInv hD with hend | ⟨w, priw, hww, hwle⟩
                · rw [← hue] at hend
                  have h2 := hvend.symm.trans hend
                  injection h2
                · -- the popped priority is minimal, and bounds the score
                  have hple : pri0 ≤ priw := by
                    rw [hq] at hww
                    rcases List.mem_cons.mp hww with hww | hww
                    · have : pri0 = priw := (congrArg Prod.snd hww).symm
                      omega
                    · have hsorted := hq ▸ hInv.1.sorted
                      have := (List.pairwise_cons.mp hsorted).1 _ hww
                      exact this
                  obtain ⟨ve, hve, hvle⟩ := hInv.1.exitPri pri0
                    (by rw [hq, hue]; exact List.mem_cons_self _ _)
                  have hvee : ve = vend := by
                    rw [← hue] at hve
                    have h2 := hve.symm.trans hvend
                    injection h2
                  obtain ⟨kr, hkr, hrr⟩ := hInv.1.gReach u vend hvend
                  have hDk : D ≤ kr := hD.2 kr (hue ▸ hrr)
                  omega
              have hlow : D ≤ p'.length - 1 := hD.2 _ (hue ▸ hreach)
              have hpos : 0 < p'.length := List.length_pos.mpr hne'
              omega
          · intro h; cases h
      · rw [if_neg hue] at hr
        exact ih _ (step_preserves hq hInv hue) r hr

/-- Inverting a successful construction: the maze is exactly the given
data, and the entrance passed the validity check. -/
theorem create_inv {board : Board} {s e : Coordinate} {mz : Maze}
    (h : Maze.create board s e = some mz) :
    mz = ⟨board, s, e⟩ ∧ isValidCoordinate board s = true := by
  cases hv : isValidCoordinate board s with
  | true =>
    simp only [Maze.create, hv, Bool.not_true, Bool.or_self, Bool.false_eq_true,
      if_false, Option.some.injEq] at h
    exact ⟨h.symm, rfl⟩
  | false =>
    simp [Maze.create, hv] at h

/-! ## Path validity (claim C4) -/

/-- C4: any path the solver returns starts at the entrance, ends at the
exit, visits only cells that `isValidMove` accepts, and moves by exactly
one unit in exactly one axis at each step. -/
theorem astar_path_valid (board : Board) (s e : Coordinate) (mz : Maze)
    (hc : Maze.create board s e = some mz) (fuel : Nat) (p : List Coordinate)
    (hf : findPath mz fuel = some (some p)) :
    p.head? = some mz.start ∧ p.getLast? = some mz.endc ∧
    (∀ c ∈ p, mz.isValidMove c = true) ∧
    List.Chain' (fun u v => (v.x - u.x).natAbs + (v.y - u.y).natAbs = 1) p := by
  obtain ⟨hmz, hval⟩ := create_inv hc
  obtain ⟨⟨⟨hhead, hlast, hmemb, hchain⟩, _⟩, _⟩ :=
    (astarLoop_sound fuel (initState mz) (AInv_init mz) (some p) hf).1 p rfl
  refine ⟨hhead, hlast, ?_, ?_⟩
  · intro c hcmem
    rcases hmemb c hcmem with h | h
    · subst h
      subst hmz
      exact hval
    · exact h
  · exact hchain.imp (fun a b hmem => mem_getNeighbors_unit hmem)

/-- Witness for C4 on the 1×2 all-passable maze: the returned path is
`[(0,0), (1,0)]` and satisfies every clause. -/
theorem astar_path_valid_witness :
    ([(⟨0, 0⟩ : Coordinate), ⟨1, 0⟩]).head? =
        some (Maze.mk [[0, 0]] ⟨0, 0⟩ ⟨1, 0⟩).start ∧
    ([(⟨0, 0⟩ : Coordinate), ⟨1, 0⟩]).getLast? =
        some (Maze.mk [[0, 0]] ⟨0, 0⟩ ⟨1, 0⟩).endc ∧
    (∀ c ∈ [(⟨0, 0⟩ : Coordinate), ⟨1, 0⟩],
      (Maze.mk [[0, 0]] ⟨0, 0⟩ ⟨1, 0⟩).isValidMove c = true) ∧
    List.Chain' (fun u v => (v.x - u.x).natAbs + (v.y - u.y).natAbs = 1)
      [(⟨0, 0⟩ : Coordinate), ⟨1, 0⟩] :=
  astar_path_valid [[0, 0]] ⟨0, 0⟩ ⟨1, 0⟩ ⟨[[0, 0]], ⟨0, 0⟩, ⟨1, 0⟩⟩ (by decide)
    3 [⟨0, 0⟩, ⟨1, 0⟩] (by decide)

/-! ## Termination of the solver loop -/

theorem isValidCoordinate_iff {board : Board} {c : Coordinate} :
    isValidCoordinate board c = true ↔
    0 ≤ c.y ∧ c.y < (board.length : Int) ∧ 0 ≤ c.x ∧
      c.x < ((board.headD []).length : Int) ∧ cellAt board c = 0 := by
  simp [isValidCoordinate, and_assoc]

theorem mem_validCells {m : Maze} {z : Coordinate}
    (hz : m.isValidMove z = true) : z ∈ validCells m := by
  have hv : isValidCoordinate m.maze z = true := hz
  obtain ⟨hy0, hyl, hx0, hxl, _⟩ := isValidCoordinate_iff.mp hv
  have hxeq : ((z.x.toNat : Int)) = z.x := Int.toNat_of_nonneg hx0
  have hyeq : ((z.y.toNat : Int)) = z.y := Int.toNat_of_nonneg hy0
  have hzeq : (⟨(z.x.toNat : Int), (z.y.toNat : Int)⟩ : Coordinate) = z := by
    rw [hxeq, hyeq]
  rw [validCells, List.mem_flatMap]
  refine ⟨z.y.toNat, by rw [List.mem_range]; omega, ?_⟩
  rw [List.mem_filterMap]
  refine ⟨z.x.toNat, by rw [List.mem_range]; omega, ?_⟩
  rw [if_pos (by rw [hzeq]; exact hz)]
  rw [hzeq]

/-- Freshly scoring a cell of the list strictly shrinks the number of
unscored cells. -/
theorem countP_mapSet_fresh {g : Coordinate → Option Nat} {n : Coordinate}
    {t : Nat} {L : List Coordinate} (hmem : n ∈ L) (hn : g n = none) :
    L.countP (fun z => (mapSet g n t z).isNone) <
      L.countP (fun z => (g z).isNone) := by
  induction L with
  | nil => cases hmem
  | cons a L ih =>
    rw [List.countP_cons, List.countP_cons]
    by_cases han : a = n
    · subst han
      have h1 : (mapSet g a t a).isNone = false := by rw [mapSet_eq]; rfl
      have h2 : (g a).isNone = true := by rw [hn]; rfl
      have hle : L.countP (fun z => (mapSet g a t z).isNone) ≤
          L.countP (fun z => (g z).isNone) := by
        apply List.countP_mono_left
        intro z _ hzp
        by_cases hza : z = a
        · subst hza
          rw [h1] at hzp
          cases hzp
        · rwa [mapSet_ne _ _ _ hza] at hzp
      rw [h1, h2]
      simp only [Bool.false_eq_true, if_false, if_true]
      omega
    · have h1 : (mapSet g n t a).isNone = (g a).isNone := by
        rw [mapSet_ne _ _ _ han]
      rcases List.mem_cons.mp hmem with hmem' | hmem'
      · exact absurd hmem'.symm han
      · have := ih hmem'
        rw [h1]
        cases (g a).isNone <;> simp <;> omega

/-- Improving a recorded score keeps the set of unscored cells. -/
theorem countP_mapSet_improve {g : Coordinate → Option Nat} {n : Coordinate}
    {t gn : Nat} (hn : g n = some gn) {L : List Coordinate} :
    L.countP (fun z => (mapSet g n t z).isNone) =
      L.countP (fun z => (g z).isNone) := by
  apply List.countP_congr
  intro z _
  by_cases hza : z = n
  · subst hza
    rw [mapSet_eq, hn]
    simp
  · rw [mapSet_ne _ _ _ hza]

/-- Improving a recorded score strictly shrinks the total of recorded
scores. -/
theorem sum_mapSet_improve {g : Coordinate → Option Nat} {n : Coordinate}
    {t gn : Nat} (hn : g n = some gn) (hlt : t < gn) {L : List Coordinate}
    (hmem : n ∈ L) :
    (L.map (fun z => (mapSet g n t z).getD 0)).sum <
      (L.map (fun z => (g z).getD 0)).sum := by
  induction L with
  | nil => cases hmem
  | cons a L ih =>
    rw [List.map_cons, List.map_cons, List.sum_cons, List.sum_cons]
    have hle : (L.map (fun z => (mapSet g n t z).getD 0)).sum ≤
        (L.map (fun z => (g z).getD 0)).sum := by
      apply List.sum_le_sum
      intro z _
      by_cases hza : z = n
      · subst hza
        rw [mapSet_eq, hn]
        simp only [Option.getD_some]
        omega
      · rw [mapSet_ne _ _ _ hza]
    by_cases han : a = n
    · subst han
      rw [mapSet_eq, hn]
      simp only [Option.getD_some]
      omega
    · rw [mapSet_ne _ _ _ han]
      rcases List.mem_cons.mp hmem with hmem' | hmem'
      · exact absurd hmem'.symm han
      · have := ih hmem'
        omega

/-- The measure trichotomy for one relaxation: identical state, or fewer
unscored cells, or the same unscored cells and a smaller score total. -/
theorem relax_measure {m : Maze} {u : Coordinate} {s : AState}
    {n : Coordinate} :
    relaxNeighbor m u s n = s ∨
    muNone m (relaxNeighbor m u s n) < muNone m s ∨
    (muNone m (relaxNeighbor m u s n) = muNone m s ∧
      muG m (relaxNeighbor m u s n) < muG m s) := by
  rcases relax_split m u s n with ⟨heq, _⟩ | ⟨hv, hcond, heq⟩
  · exact Or.inl heq
  · right
    have hmem := mem_validCells hv
    rcases hcond with hnone | ⟨gn, hgn, hlt⟩
    · left
      rw [heq]
      simp only [muNone]
      exact countP_mapSet_fresh hmem hnone
    · right
      constructor
      · rw [heq]
        simp only [muNone]
        exact countP_mapSet_improve hgn
      · rw [heq]
        simp only [muG]
        exact sum_mapSet_improve hgn hlt hmem

/-- The number of unscored cells never grows under a relaxation. -/
theorem relax_muNone_le {m : Maze} {u : Coordinate} {s : AState}
    {n : Coordinate} : muNone m (relaxNeighbor m u s n) ≤ muNone m s := by
  rcases relax_measure (m := m) (u := u) (s := s) (n := n) with he | hlt | ⟨heq, _⟩
  · rw [he]
  · omega
  · omega

theorem foldl_relax_muNone_le {m : Maze} {u : Coordinate} :
    ∀ (l : List Coordinate) (s : AState),
      muNone m (l.foldl (relaxNeighbor m u) s) ≤ muNone m s := by
  intro l
  induction l with
  | nil => intro s; exact Nat.le_refl _
  | cons x xs ih =>
    intro s
    exact Nat.le_trans (ih (relaxNeighbor m u s x)) relax_muNone_le

/-- The measure trichotomy for a whole expansion. -/
theorem foldl_relax_measure {m : Maze} {u : Coordinate} :
    ∀ (l : List Coordinate) (s : AState),
      l.foldl (relaxNeighbor m u) s = s ∨
      muNone m (l.foldl (relaxNeighbor m u) s) < muNone m s ∨
      (muNone m (l.foldl (relaxNeighbor m u) s) = muNone m s ∧
        muG m (l.foldl (relaxNeighbor m u) s) < muG m s) := by
  intro l
  induction l with
  | nil => intro s; exact Or.inl rfl
  | cons x xs ih =>
    intro s
    rw [List.foldl_cons]
    rcases relax_measure (m := m) (u := u) (s := s) (n := x) with he | hlt | ⟨heq, hlt⟩
    · rw [he]
      exact ih s
    · right; left
      exact Nat.lt_of_le_of_lt (foldl_relax_muNone_le xs _) hlt
    · rcases ih (relaxNeighbor m u s x) with he2 | hlt2 | ⟨heq2, hlt2⟩
      · rw [he2]
        exact Or.inr (Or.inr ⟨heq, hlt⟩)
      · right; left
        omega
      · right; right
        exact ⟨by omega, by omega⟩

/-- The loop always terminates: from any invariant state some fuel makes it
return a result. -/
theorem astar_terminates {m : Maze} :
    ∀ (s : AState), AInv m s → ∃ fuel r, astarLoop m fuel s = some r := by
  suffices h : ∀ a b q (s : AState), AInv m s → muNone m s = a → muG m s = b →
      s.openSet.length = q → ∃ fuel r, astarLoop m fuel s = some r by
    intro s hInv
    exact h _ _ _ s hInv rfl rfl rfl
  intro a
  induction a using Nat.strong_induction_on with
  | _ a iha =>
    intro b
    induction b using Nat.strong_induction_on with
    | _ b ihb =>
      intro q
      induction q using Nat.strong_induction_on with
      | _ q ihq =>
        intro s hInv ha hb hq
        cases hqs : s.openSet with
        | nil => exact ⟨1, none, astarLoop_succ_nil hqs⟩
        | cons head rest =>
          obtain ⟨u, pri0⟩ := head
          by_cases hue : u = m.endc
          · obtain ⟨vend, hvend⟩ := hInv.1.qg u pri0
              (by rw [hqs]; exact List.mem_cons_self _ _)
            obtain ⟨p, hp⟩ :=
              buildPath_total hInv.1 vend u hvend (vend + 1) (by omega)
            refine ⟨vend + 1, some p, ?_⟩
            rw [astarLoop_succ_cons hqs, if_pos hue, hp]
            rfl
          · have hInv' := step_preserves hqs hInv hue
            have hmug : muNone m ({ s with openSet := rest } : AState) = muNone m s := rfl
            have hmug2 : muG m ({ s with openSet := rest } : AState) = muG m s := rfl
            rcases foldl_relax_measure (m := m) (u := u) (getNeighbors u)
                ({ s with openSet := rest }) with he | hlt | ⟨heq, hlt⟩
            · -- no score changed: the frontier shrank by one
              have hlen : ((getNeighbors u).foldl (relaxNeighbor m u)
                  { s with openSet := rest }).openSet.length < q := by
                rw [he]
                have : s.openSet.length = rest.length + 1 := by
                  rw [hqs]; rfl
                simp only []
                omega
              obtain ⟨fuel, r, hr⟩ := ihq _ hlen _ hInv'
                (by rw [he, hmug, ha]) (by rw [he, hmug2, hb]) rfl
              exact ⟨fuel + 1, r, by rw [astarLoop_succ_cons hqs, if_neg hue]; exact hr⟩
            · obtain ⟨fuel, r, hr⟩ := iha _ (by rw [← ha, ← hmug]; exact hlt)
                (muG m _) _ _ hInv' rfl rfl rfl
              exact ⟨fuel + 1, r, by rw [astarLoop_succ_cons hqs, if_neg hue]; exact hr⟩
            · obtain ⟨fuel, r, hr⟩ := ihb _ (by rw [← hb, ← hmug2]; exact hlt)
                _ _ hInv' (by rw [heq, hmug, ha]) rfl rfl
              exact ⟨fuel + 1, r, by rw [astarLoop_succ_cons hqs, if_neg hue]; exact hr⟩

/-! ## Optimality (claim C1) and the no-path outcome (claim C7) -/

/-- C1: on a validly constructed grid whose exit is reachable, the solver
terminates with a path whose number of moves (`length − 1`) equals the true
shortest-path distance `D` — the length breadth-first search would find. -/
theorem astar_finds_shortest (board : Board) (s e : Coordinate) (mz : Maze)
    (_hc : Maze.create board s e = some mz) (D : Nat)
    (hD : IsShortestDist mz D) :
    ∃ fuel p, findPath mz fuel = some (some p) ∧ p.length = D + 1 := by
  obtain ⟨fuel, r, hr⟩ := astar_terminates (initState mz) (AInv_init mz)
  have hsound := astarLoop_sound fuel (initState mz) (AInv_init mz) r hr
  cases r with
  | none => exact absurd hD.1 (hsound.2 rfl D)
  | some p =>
    obtain ⟨_, hlen⟩ := hsound.1 p rfl
    exact ⟨fuel, p, hr, hlen D hD⟩

/-- Witness for C1: the 1×2 all-passable maze, where the shortest distance
is one move and the solver returns a two-coordinate path. -/
theorem astar_finds_shortest_witness :
    ∃ fuel p, findPath ⟨[[0, 0]], ⟨0, 0⟩, ⟨1, 0⟩⟩ fuel = some (some p) ∧
      p.length = 1 + 1 :=
  astar_finds_shortest [[0, 0]] ⟨0, 0⟩ ⟨1, 0⟩ ⟨[[0, 0]], ⟨0, 0⟩, ⟨1, 0⟩⟩
    (by decide) 1
    ⟨ReachFrom.succ ReachFrom.zero (by decide) (by decide),
     fun k hk => by
       match k, hk with
       | 0, hk =>
         exact absurd (congrArg Coordinate.x (reachFrom_zero hk)) (by decide)
       | k + 1, _ => omega⟩

/-- C7: on a validly constructed grid whose exit is unreachable, the solver
terminates with the frontier exhausted and returns the explicit absent
result (`null`, embedded as the inner `none`) — a normal return value, not
a thrown error. -/
theorem astar_no_path_returns_none (board : Board) (s e : Coordinate)
    (mz : Maze) (_hc : Maze.create board s e = some mz)
    (hnp : ∀ k, ¬ ReachN mz k mz.endc) :
    ∃ fuel, findPath mz fuel = some none := by
  obtain ⟨fuel, r, hr⟩ := astar_terminates (initState mz) (AInv_init mz)
  cases r with
  | none => exact ⟨fuel, hr⟩
  | some p =>
    obtain ⟨⟨_, hreach⟩, _⟩ :=
      (astarLoop_sound fuel (initState mz) (AInv_init mz) (some p) hr).1 p rfl
    exact absurd hreach (hnp _)

/-- Witness for C7: a 1×2 maze whose exit cell is a wall (construction
still succeeds — see C3), so no path exists and the solver returns the
absent result. -/
theorem astar_no_path_returns_none_witness :
    ∃ fuel, findPath ⟨[[0, 1]], ⟨0, 0⟩, ⟨1, 0⟩⟩ fuel = some none :=
  astar_no_path_returns_none [[0, 1]] ⟨0, 0⟩ ⟨1, 0⟩ ⟨[[0, 1]], ⟨0, 0⟩, ⟨1, 0⟩⟩
    (by decide)
    (fun k hk => by
      rcases reachFrom_valid hk with h | h
      · exact absurd (congrArg Coordinate.x h) (by decide)
      · exact absurd h (by decide))

/-! ## Cell-level helpers for the generator -/

theorem getD_set {α : Type} (l : List α) (i j : Nat) (a d : α) :
    (l.set i a).getD j d = if i = j ∧ i < l.length then a else l.getD j d := by
  rw [List.getD_eq_getElem?_getD, List.getD_eq_getElem?_getD, List.getElem?_set]
  by_cases hij : i = j
  · subst hij
    by_cases hlen : i < l.length
    · simp [hlen]
    · simp [hlen, List.getElem?_eq_none (Nat.le_of_not_lt hlen)]
  · simp [hij]

theorem headD_eq_getD {α : Type} (l : List α) (d : α) :
    l.headD d = l.getD 0 d := by
  cases l <;> rfl

theorem setCell_length (g : Board) (c : Coordinate) (v : Nat) :
    (MazeGenerator.setCell g c v).length = g.length :=
  List.length_set g _ _

theorem setCell_row_length (g : Board) (c : Coordinate) (v : Nat) (j : Nat) :
    ((MazeGenerator.setCell g c v).getD j []).length = (g.getD j []).length := by
  rw [MazeGenerator.setCell, getD_set]
  by_cases h : c.y.toNat = j ∧ c.y.toNat < g.length
  · rw [if_pos h, List.length_set, h.1]
  · rw [if_neg h]

theorem cellAt_setCell (g : Board) (c z : Coordinate) (v : Nat) :
    cellAt (MazeGenerator.setCell g c v) z =
    if z.y.toNat = c.y.toNat ∧ z.x.toNat = c.x.toNat ∧
        c.y.toNat < g.length ∧ c.x.toNat < (g.getD c.y.toNat []).length
    then v else cellAt g z := by
  unfold cellAt MazeGenerator.setCell
  rw [getD_set]
  by_cases h1 : c.y.toNat = z.y.toNat ∧ c.y.toNat < g.length
  · rw [if_pos h1, getD_set]
    by_cases h2 : c.x.toNat = z.x.toNat ∧
        c.x.toNat < (g.getD c.y.toNat []).length
    · rw [if_pos h2, if_pos ⟨h1.1.symm, h2.1.symm, h1.2, h2.2⟩]
    · rw [if_neg h2, if_neg ?_, h1.1]
      intro hm
      exact h2 ⟨hm.2.1.symm, hm.2.2.2⟩
  · rw [if_neg h1, if_neg ?_]
    intro hm
    exact h1 ⟨hm.1.symm, hm.2.2.1⟩

theorem cellAt_setCell_zero_mono {g : Board} {c z : Coordinate}
    (hz : cellAt g z = 0) : cellAt (MazeGenerator.setCell g c 0) z = 0 := by
  rw [cellAt_setCell]
  split
  · rfl
  · exact hz

theorem cellAt_setCell_self {g : Board} {c : Coordinate} {v : Nat}
    (hy : c.y.toNat < g.length)
    (hx : c.x.toNat < (g.getD c.y.toNat []).length) :
    cellAt (MazeGenerator.setCell g c v) c = v := by
  rw [cellAt_setCell, if_pos ⟨rfl, rfl, hy, hx⟩]

theorem cellAt_setCell_ne {g : Board} {c z : Coordinate} {v : Nat}
    (h : z.y.toNat ≠ c.y.toNat ∨ z.x.toNat ≠ c.x.toNat) :
    cellAt (MazeGenerator.setCell g c v) z = cellAt g z := by
  rw [cellAt_setCell, if_neg ?_]
  intro hm
  rcases h with h | h
  · exact h hm.1
  · exact h hm.2.1

theorem genValid_iff {W H : Nat} {x y : Int} :
    MazeGenerator.isValidCoordinate W H x y = true ↔ Interior W H ⟨x, y⟩ := by
  simp [MazeGenerator.isValidCoordinate, Interior, and_assoc]

theorem getD_replicate {α : Type} (n : Nat) (a d : α) :
    ∀ i, (List.replicate n a).getD i d = if i < n then a else d := by
  induction n with
  | zero => intro i; simp
  | succ n ih =>
    intro i
    cases i with
    | zero => simp [List.replicate]
    | succ i =>
      rw [List.replicate, List.getD_cons_succ, ih]
      by_cases h : i < n
      · rw [if_pos h, if_pos (by omega)]
      · rw [if_neg h, if_neg (by omega)]

theorem cellAt_initGrid (W H : Nat) (z : Coordinate) :
    cellAt (List.replicate H (List.replicate W 1) : Board) z = 1 := by
  unfold cellAt
  rw [getD_replicate]
  by_cases h : z.y.toNat < H
  · rw [if_pos h, getD_replicate]
    split <;> rfl
  · rw [if_neg h]
    rfl

theorem shaped_initGrid (W H : Nat) :
    Shaped W H (List.replicate H (List.replicate W 1) : Board) := by
  constructor
  · exact List.length_replicate H _
  · intro j hj
    rw [getD_replicate, if_pos hj, List.length_replicate]

theorem shaped_setCell {W H : Nat} {g : Board} (hs : Shaped W H g)
    (c : Coordinate) (v : Nat) : Shaped W H (MazeGenerator.setCell g c v) := by
  refine ⟨?_, ?_⟩
  · rw [setCell_length]; exact hs.1
  · intro j hj
    rw [setCell_row_length]
    exact hs.2 j hj

/-- Transfer of the validity predicate between boards of identical shape
when passable cells are preserved. -/
theorem isValidCoordinate_mono {g g' : Board}
    (hlen : g'.length = g.length)
    (hhead : (g'.headD []).length = (g.headD []).length)
    (h0 : ∀ z, cellAt g z = 0 → cellAt g' z = 0) {c : Coordinate}
    (hc : isValidCoordinate g c = true) : isValidCoordinate g' c = true := by
  rw [isValidCoordinate_iff] at hc ⊢
  obtain ⟨h1, h2, h3, h4, h5⟩ := hc
  exact ⟨h1, by rw [hlen]; exact h2, h3, by rw [hhead]; exact h4, h0 c h5⟩

theorem passReach_trans {g : Board} {a b c : Coordinate}
    (h1 : PassReach g a b) (h2 : PassReach g b c) : PassReach g a c := by
  induction h2 with
  | refl => exact h1
  | step hprev hmem hvalid ih => exact PassReach.step ih hmem hvalid

theorem passReach_mono {g g' : Board}
    (hv : ∀ z, isValidCoordinate g z = true → isValidCoordinate g' z = true)
    {a b : Coordinate} (h : PassReach g a b) : PassReach g' a b := by
  induction h with
  | refl => exact PassReach.refl _
  | step hprev hmem hvalid ih => exact PassReach.step ih hmem (hv _ hvalid)

theorem passReach_end_valid {g : Board} {a b : Coordinate}
    (h : PassReach g a b) : b = a ∨ isValidCoordinate g b = true := by
  cases h with
  | refl => exact Or.inl rfl
  | step hprev hmem hvalid => exact Or.inr hvalid

theorem passReach_symm {g : Board} {a b : Coordinate}
    (ha : isValidCoordinate g a = true) (h : PassReach g a b) :
    PassReach g b a := by
  induction h with
  | refl => exact PassReach.refl _
  | @step b' c' hprev hmem hvalid ih =>
    refine passReach_trans (PassReach.step (PassReach.refl c')
      (getNeighbors_symm hmem) ?_) ih
    rcases passReach_end_valid hprev with h | h
    · rw [h]; exact ha
    · exact h

/-! ## The direction array always holds a permutation of the four unit
directions -/

theorem perms24_mem_directions :
    ∀ l ∈ MazeGenerator.perms24, ∀ d ∈ l, d ∈ MazeGenerator.directions := by
  decide

theorem perms24_perm :
    ∀ l ∈ MazeGenerator.perms24, l.Perm MazeGenerator.directions := by
  decide

theorem perms24_length : ∀ l ∈ MazeGenerator.perms24, l.length = 4 := by
  decide

theorem listSwap_perms24 :
    ∀ l ∈ MazeGenerator.perms24, ∀ i < 4, ∀ j < 4,
      MazeGenerator.listSwap l i j ∈ MazeGenerator.perms24 := by
  decide

theorem shuffleDirections_perms24 {ρ : Nat → Nat}
    {dirs : List (Int × Int)} {i : Nat}
    (hd : dirs ∈ MazeGenerator.perms24) :
    MazeGenerator.shuffleDirections ρ dirs i ∈ MazeGenerator.perms24 := by
  unfold MazeGenerator.shuffleDirections
  have h1 := listSwap_perms24 dirs hd 3 (by omega) (ρ i % 4) (Nat.mod_lt _ (by omega))
  have h2 := listSwap_perms24 _ h1 2 (by omega) (ρ (i + 1) % 3)
    (by have := Nat.mod_lt (ρ (i + 1)) (y := 3) (by omega); omega)
  exact listSwap_perms24 _ h2 1 (by omega) (ρ (i + 2) % 2)
    (by have := Nat.mod_lt (ρ (i + 2)) (y := 2) (by omega); omega)

theorem mem_getNeighbors_of_dir {d : Int × Int}
    (hd : d ∈ MazeGenerator.directions) (c : Coordinate) :
    (⟨c.x + d.1, c.y + d.2⟩ : Coordinate) ∈ getNeighbors c := by
  simp only [MazeGenerator.directions, List.mem_cons, List.not_mem_nil,
    or_false] at hd
  rcases hd with h | h | h | h <;> subst h <;>
    simp [getNeighbors, Coordinate.mk.injEq] <;> omega

/-! ## Interior cells, shape transfer, and reachability transfer -/

theorem interior_valid {W H : Nat} {g : Board} (hs : Shaped W H g)
    {z : Coordinate} (hz : Interior W H z) (h0 : cellAt g z = 0) :
    isValidCoordinate g z = true := by
  unfold Interior at hz
  obtain ⟨h1, h2, h3, h4⟩ := hz
  rw [isValidCoordinate_iff]
  have hH : 0 < H := by omega
  refine ⟨by omega, ?_, by omega, ?_, h0⟩
  · rw [hs.1]; omega
  · rw [headD_eq_getD, hs.2 0 hH]; omega

theorem valid_mono_of_shaped {W H : Nat} {g g' : Board}
    (hs : Shaped W H g) (hs' : Shaped W H g')
    (h0 : ∀ z, cellAt g z = 0 → cellAt g' z = 0) :
    ∀ z, isValidCoordinate g z = true → isValidCoordinate g' z = true := by
  intro z
  refine isValidCoordinate_mono ?_ ?_ h0
  · rw [hs.1, hs'.1]
  · by_cases hH : 0 < H
    · rw [headD_eq_getD, headD_eq_getD, hs.2 0 hH, hs'.2 0 hH]
    · have h1 : g = [] := List.eq_nil_of_length_eq_zero (by rw [hs.1]; omega)
      have h2 : g' = [] := List.eq_nil_of_length_eq_zero (by rw [hs'.1]; omega)
      rw [h1, h2]

theorem passReach_mono_shaped {W H : Nat} {g g' : Board}
    (hs : Shaped W H g) (hs' : Shaped W H g')
    (h0 : ∀ z, cellAt g z = 0 → cellAt g' z = 0) {a b : Coordinate}
    (h : PassReach g a b) : PassReach g' a b :=
  passReach_mono (valid_mono_of_shaped hs hs' h0) h

theorem interior_bounds {W H : Nat} {g : Board} (hs : Shaped W H g)
    {z : Coordinate} (hz : Interior W H z) :
    z.y.toNat < g.length ∧ z.x.toNat < (g.getD z.y.toNat []).length := by
  unfold Interior at hz
  obtain ⟨h1, h2, h3, h4⟩ := hz
  have hy : z.y.toNat < H := by omega
  exact ⟨by rw [hs.1]; exact hy, by rw [hs.2 _ hy]; omega⟩

theorem eq_of_toNat_eq_interior {W H : Nat} {m z : Coordinate}
    (hm : Interior W H m) (hy : z.y.toNat = m.y.toNat)
    (hx : z.x.toNat = m.x.toNat) : z = m := by
  unfold Interior at hm
  obtain ⟨h1, h2, h3, h4⟩ := hm
  obtain ⟨hx', hy'⟩ : z.x = m.x ∧ z.y = m.y := by omega
  cases z
  cases m
  simp_all

theorem cellAt_setCell_cases (g : Board) (c z : Coordinate) (v : Nat) :
    cellAt (MazeGenerator.setCell g c v) z = cellAt g z ∨
    cellAt (MazeGenerator.setCell g c v) z = v := by
  rw [cellAt_setCell]
  split
  · exact Or.inr rfl
  · exact Or.inl rfl

theorem cellAt_setCell_frame {W H : Nat} {g : Board} {c z : Coordinate}
    {v : Nat} (hc : Interior W H c) (hz : ¬ Interior W H z) :
    cellAt (MazeGenerator.setCell g c v) z = cellAt g z := by
  rw [cellAt_setCell]
  split
  · next hcnd =>
    exact absurd (by rw [eq_of_toNat_eq_interior hc hcnd.1 hcnd.2.1]; exact hc) hz
  · rfl

theorem mid_interior {W H : Nat} {coord : Coordinate} {d : Int × Int}
    (hd : d ∈ MazeGenerator.directions) (hc : Interior W H coord)
    (ht : Interior W H ⟨coord.x + d.1 * 2, coord.y + d.2 * 2⟩) :
    Interior W H ⟨coord.x + d.1, coord.y + d.2⟩ := by
  simp only [MazeGenerator.directions, List.mem_cons, List.not_mem_nil,
    or_false] at hd
  unfold Interior at hc ht ⊢
  dsimp only at ht ⊢
  rcases hd with h | h | h | h <;> subst h <;> dsimp only at ht ⊢ <;>
    exact ⟨by omega, by omega, by omega, by omega⟩

theorem getD_mem_of_lt {α : Type} {l : List α} {k : Nat} (h : k < l.length)
    (d : α) : l.getD k d ∈ l := by
  rw [List.getD_eq_getElem?_getD, List.getElem?_eq_getElem h, Option.getD_some]
  exact List.getElem_mem h

/-- Postcondition of the `for..of` loop of `recursiveBacktrack`, assuming
the recursive calls (the `step` parameter) satisfy `RbPost`. -/
theorem rbLoop_post {W H : Nat}
    (step : MazeGenerator.GenState → Coordinate → Option MazeGenerator.GenState)
    (hstep : ∀ g dirs i c out, dirs ∈ MazeGenerator.perms24 →
      Interior W H c → Shaped W H g → step (g, dirs, i) c = some out →
      RbPost W H c g out) :
    ∀ ks : List Nat, (∀ k ∈ ks, k < 4) →
    ∀ coord g dirs i out, dirs ∈ MazeGenerator.perms24 → Interior W H coord →
      Shaped W H g → cellAt g coord = 0 →
      MazeGenerator.rbLoop step W H coord ks (g, dirs, i) = some out →
      RbPost W H coord g out := by
  intro ks
  induction ks with
  | nil =>
    intro _ coord g dirs i out hd _hint hs h0 hrun
    simp only [MazeGenerator.rbLoop, Option.some.injEq] at hrun
    subst hrun
    exact ⟨hd, hs, fun z => Or.inl rfl, fun z _ => rfl, h0, fun z hz => Or.inl hz⟩
  | cons k ks ih =>
    intro hks coord g dirs i out hd hint hs h0 hrun
    have hk : k < 4 := hks k (List.mem_cons_self k ks)
    have hks' : ∀ j ∈ ks, j < 4 := fun j hj => hks j (List.mem_cons_of_mem _ hj)
    simp only [MazeGenerator.rbLoop] at hrun
    set d := dirs.getD k (0, 0) with hd_def
    have hdmem : d ∈ dirs := getD_mem_of_lt (by rw [perms24_length dirs hd]; exact hk) _
    have hddir : d ∈ MazeGenerator.directions := perms24_mem_directions dirs hd d hdmem
    split at hrun
    · next hcond =>
      simp only [Bool.and_eq_true, decide_eq_true_eq] at hcond
      have hTint : Interior W H ⟨coord.x + d.1 * 2, coord.y + d.2 * 2⟩ :=
        genValid_iff.mp hcond.1
      have hMint : Interior W H ⟨coord.x + d.1, coord.y + d.2⟩ :=
        mid_interior hddir hint hTint
      split at hrun
      · next heq => simp at hrun
      · next st1 heq =>
        obtain ⟨g1, dirs1, i1⟩ := st1
        have hpost1 : RbPost W H ⟨coord.x + d.1 * 2, coord.y + d.2 * 2⟩
            (MazeGenerator.setCell g ⟨coord.x + d.1, coord.y + d.2⟩ 0)
            (g1, dirs1, i1) :=
          hstep _ _ _ _ _ hd hTint (shaped_setCell hs _ _) heq
        unfold RbPost at hpost1
        dsimp only at hpost1
        obtain ⟨hd1, hs1, hmono1, hframe1, hcarv1, hconn1⟩ := hpost1
        have hzm1 : ∀ z,
            cellAt (MazeGenerator.setCell g ⟨coord.x + d.1, coord.y + d.2⟩ 0) z = 0 →
            cellAt g1 z = 0 := by
          intro z hz
          rcases hmono1 z with h | h
          · rw [h]; exact hz
          · exact h
        have hmid0 : cellAt
            (MazeGenerator.setCell g ⟨coord.x + d.1, coord.y + d.2⟩ 0)
            ⟨coord.x + d.1, coord.y + d.2⟩ = 0 :=
          cellAt_setCell_self (interior_bounds hs hMint).1 (interior_bounds hs hMint).2
        have hres := ih hks' coord g1 dirs1 i1 out hd1 hint hs1
          (hzm1 coord (cellAt_setCell_zero_mono h0)) hrun
        unfold RbPost at hres ⊢
        obtain ⟨hd2, hs2, hmono2, hframe2, hcarv2, hconn2⟩ := hres
        have hzm2 : ∀ z, cellAt g1 z = 0 → cellAt out.1 z = 0 := by
          intro z hz
          rcases hmono2 z with h | h
          · rw [h]; exact hz
          · exact h
        have hmemMid : (⟨coord.x + d.1, coord.y + d.2⟩ : Coordinate) ∈
            getNeighbors coord := mem_getNeighbors_of_dir hddir coord
        have hvalidMid : isValidCoordinate out.1
            (⟨coord.x + d.1, coord.y + d.2⟩ : Coordinate) = true :=
          interior_valid hs2 hMint (hzm2 _ (hzm1 _ hmid0))
        have htm : (⟨coord.x + d.1 * 2, coord.y + d.2 * 2⟩ : Coordinate) =
            ⟨(coord.x + d.1) + d.1, (coord.y + d.2) + d.2⟩ := by
          congr 1 <;> ring
        have hmemTarget : (⟨coord.x + d.1 * 2, coord.y + d.2 * 2⟩ : Coordinate) ∈
            getNeighbors ⟨coord.x + d.1, coord.y + d.2⟩ := by
          rw [htm]
          exact mem_getNeighbors_of_dir hddir _
        have hvalidTarget : isValidCoordinate out.1
            (⟨coord.x + d.1 * 2, coord.y + d.2 * 2⟩ : Coordinate) = true :=
          interior_valid hs2 hTint (hzm2 _ hcarv1)
        have hreachT : PassReach out.1 coord
            ⟨coord.x + d.1 * 2, coord.y + d.2 * 2⟩ :=
          PassReach.step (PassReach.step (PassReach.refl coord) hmemMid hvalidMid)
            hmemTarget hvalidTarget
        refine ⟨hd2, hs2, ?_, ?_, hcarv2, ?_⟩
        · intro z
          rcases hmono2 z with h2 | h2
          · rcases hmono1 z with h1 | h1
            · rcases cellAt_setCell_cases g ⟨coord.x + d.1, coord.y + d.2⟩ z 0 with
                hm | hm
              · exact Or.inl (by rw [h2, h1, hm])
              · exact Or.inr (by rw [h2, h1, hm])
            · exact Or.inr (by rw [h2, h1])
          · exact Or.inr h2
        · intro z hz
          rw [hframe2 z hz, hframe1 z hz, cellAt_setCell_frame hMint hz]
        · intro z hz
          rcases hconn2 z hz with h1 | hp
          · rcases hconn1 z h1 with h0' | hp1
            · rw [cellAt_setCell] at h0'
              split at h0'
              · next hcnd =>
                right
                rw [eq_of_toNat_eq_interior hMint hcnd.1 hcnd.2.1]
                exact PassReach.step (PassReach.refl coord) hmemMid hvalidMid
              · exact Or.inl h0'
            · right
              exact passReach_trans hreachT (passReach_mono_shaped hs1 hs2 hzm2 hp1)
          · exact Or.inr hp
    · next hcond =>
      exact ih hks' coord g dirs i out hd hint hs h0 hrun

/-- Every successful run of `recursiveBacktrack` satisfies `RbPost`:
permutation of the direction array, shape preservation, carving-only,
interior-only, entry cell carved, and connectivity of every carved cell to
the entry cell. -/
theorem rb_post {W H : Nat} (ρ : Nat → Nat) :
    ∀ fuel g dirs i coord out,
      dirs ∈ MazeGenerator.perms24 → Interior W H coord → Shaped W H g →
      MazeGenerator.recursiveBacktrack W H ρ fuel (g, dirs, i) coord = some out →
      RbPost W H coord g out := by
  intro fuel
  induction fuel with
  | zero =>
    intro g dirs i coord out _ _ _ hrun
    simp [MazeGenerator.recursiveBacktrack] at hrun
  | succ fuel ih =>
    intro g dirs i coord out hd hint hs hrun
    simp only [MazeGenerator.recursiveBacktrack] at hrun
    have hloop := rbLoop_post
      (fun st t => MazeGenerator.recursiveBacktrack W H ρ fuel st t)
      (fun g' dirs' i' c out' hd' hint' hs' hr =>
        ih g' dirs' i' c out' hd' hint' hs' hr)
      [0, 1, 2, 3] (by decide) coord (MazeGenerator.setCell g coord 0)
      (MazeGenerator.shuffleDirections ρ dirs i) (i + 3) out
      (shuffleDirections_perms24 hd) hint (shaped_setCell hs _ _)
      (cellAt_setCell_self (interior_bounds hs hint).1 (interior_bounds hs hint).2)
      hrun
    unfold RbPost at hloop ⊢
    obtain ⟨h1, h2, h3, h4, h5, h6⟩ := hloop
    refine ⟨h1, h2, ?_, ?_, h5, ?_⟩
    · intro z
      rcases h3 z with h | h
      · rcases cellAt_setCell_cases g coord z 0 with hm | hm
        · exact Or.inl (by rw [h, hm])
        · exact Or.inr (by rw [h, hm])
      · exact Or.inr h
    · intro z hz
      rw [h4 z hz, cellAt_setCell_frame hint hz]
    · intro z hz
      rcases h6 z hz with h | h
      · rw [cellAt_setCell] at h
        split at h
        · next hcnd =>
          right
          rw [eq_of_toNat_eq_interior hint hcnd.1 hcnd.2.1]
          exact PassReach.refl coord
        · exact Or.inl h
      · exact Or.inr h

/-! ## What acceptance of a boundary door tells us about the grid -/

theorem countP_four (p : Int × Int → Bool) :
    MazeGenerator.directions.countP p =
    (((if p (-1, 0) then 1 else 0) + (if p (0, -1) then 1 else 0)) +
      (if p (1, 0) then 1 else 0)) + (if p (0, 1) then 1 else 0) := by
  cases hp1 : p (0, 1) <;> cases hp2 : p (1, 0) <;> cases hp3 : p (0, -1) <;>
    cases hp4 : p (-1, 0) <;>
    simp [MazeGenerator.directions, List.countP_cons, hp1, hp2, hp3, hp4]

theorem isValidStartEndPoint_perm {dirs : List (Int × Int)}
    (hperm : dirs.Perm MazeGenerator.directions) (W H : Nat) (g : Board)
    (c : Coordinate) :
    MazeGenerator.isValidStartEndPoint dirs W H g c =
    MazeGenerator.isValidStartEndPoint MazeGenerator.directions W H g c := by
  unfold MazeGenerator.isValidStartEndPoint
  rw [foldl_wallCount, foldl_wallCount, List.Perm.countP_eq _ hperm]

theorem accept_top {W H : Nat} (_hW : 3 ≤ W) (hH : 3 ≤ H) {g : Board}
    (hring : ∀ z : Coordinate, ¬ Interior W H z → cellAt g z = 1)
    (h01 : ∀ z : Coordinate, cellAt g z = 0 ∨ cellAt g z = 1)
    {x : Int} (hx1 : 1 ≤ x) (hx2 : x ≤ (W : Int) - 2)
    (hacc : MazeGenerator.isValidStartEndPoint MazeGenerator.directions W H g
      ⟨x, 0⟩ = true) : cellAt g ⟨x, 1⟩ = 0 := by
  unfold MazeGenerator.isValidStartEndPoint at hacc
  rw [foldl_wallCount, countP_four] at hacc
  simp only [decide_eq_true_eq, Nat.zero_add] at hacc
  have hr4 : cellAt g ⟨x + -1, (0 : Int) + 0⟩ = 1 := hring _ (by
    intro hI; unfold Interior at hI; dsimp only at hI; omega)
  have hr2 : cellAt g ⟨x + 1, (0 : Int) + 0⟩ = 1 := hring _ (by
    intro hI; unfold Interior at hI; dsimp only at hI; omega)
  have hc4 : 0 ≤ x + -1 ∧ 0 ≤ (0 : Int) + 0 ∧ (0 : Int) + 0 < (H : Int) ∧
      x + -1 < (W : Int) ∧ cellAt g ⟨x + -1, (0 : Int) + 0⟩ = 1 :=
    ⟨by omega, by omega, by omega, by omega, hr4⟩
  have hc3 : ¬ (0 ≤ x + 0 ∧ 0 ≤ (0 : Int) + -1 ∧ (0 : Int) + -1 < (H : Int) ∧
      x + 0 < (W : Int) ∧ cellAt g ⟨x + 0, (0 : Int) + -1⟩ = 1) := by
    intro hI; omega
  have hc2 : 0 ≤ x + 1 ∧ 0 ≤ (0 : Int) + 0 ∧ (0 : Int) + 0 < (H : Int) ∧
      x + 1 < (W : Int) ∧ cellAt g ⟨x + 1, (0 : Int) + 0⟩ = 1 :=
    ⟨by omega, by omega, by omega, by omega, hr2⟩
  rw [if_pos hc4, if_neg hc3, if_pos hc2] at hacc
  by_cases hnb : cellAt g ⟨x + 0, (0 : Int) + 1⟩ = 1
  · rw [if_pos ⟨by omega, by omega, by omega, by omega, hnb⟩] at hacc
    omega
  · have h0 : cellAt g ⟨x + 0, (0 : Int) + 1⟩ = 0 := by
      rcases h01 ⟨x + 0, (0 : Int) + 1⟩ with h | h
      · exact h
      · exact absurd h hnb
    have he : (⟨x + 0, (0 : Int) + 1⟩ : Coordinate) = ⟨x, 1⟩ := by
      rw [Coordinate.mk.injEq]
      exact ⟨by ring, by ring⟩
    rwa [he] at h0

theorem accept_right {W H : Nat} (hW : 3 ≤ W) (_hH : 3 ≤ H) {g : Board}
    (hring : ∀ z : Coordinate, ¬ Interior W H z → cellAt g z = 1)
    (h01 : ∀ z : Coordinate, cellAt g z = 0 ∨ cellAt g z = 1)
    {y : Int} (hy1 : 1 ≤ y) (hy2 : y ≤ (H : Int) - 2)
    (hacc : MazeGenerator.isValidStartEndPoint MazeGenerator.directions W H g
      ⟨(W : Int) - 1, y⟩ = true) : cellAt g ⟨(W : Int) - 2, y⟩ = 0 := by
  unfold MazeGenerator.isValidStartEndPoint at hacc
  rw [foldl_wallCount, countP_four] at hacc
  simp only [decide_eq_true_eq, Nat.zero_add] at hacc
  have hr3 : cellAt g ⟨(W : Int) - 1 + 0, y + -1⟩ = 1 := hring _ (by
    intro hI; unfold Interior at hI; dsimp only at hI; omega)
  have hr1 : cellAt g ⟨(W : Int) - 1 + 0, y + 1⟩ = 1 := hring _ (by
    intro hI; unfold Interior at hI; dsimp only at hI; omega)
  have hc3 : 0 ≤ (W : Int) - 1 + 0 ∧ 0 ≤ y + -1 ∧ y + -1 < (H : Int) ∧
      (W : Int) - 1 + 0 < (W : Int) ∧
      cellAt g ⟨(W : Int) - 1 + 0, y + -1⟩ = 1 :=
    ⟨by omega, by omega, by omega, by omega, hr3⟩
  have hc2 : ¬ (0 ≤ (W : Int) - 1 + 1 ∧ 0 ≤ y + 0 ∧ y + 0 < (H : Int) ∧
      (W : Int) - 1 + 1 < (W : Int) ∧
      cellAt g ⟨(W : Int) - 1 + 1, y + 0⟩ = 1) := by
    intro hI; omega
  have hc1 : 0 ≤ (W : Int) - 1 + 0 ∧ 0 ≤ y + 1 ∧ y + 1 < (H : Int) ∧
      (W : Int) - 1 + 0 < (W : Int) ∧
      cellAt g ⟨(W : Int) - 1 + 0, y + 1⟩ = 1 :=
    ⟨by omega, by omega, by omega, by omega, hr1⟩
  rw [if_pos hc3, if_neg hc2, if_pos hc1] at hacc
  by_cases hnb : cellAt g ⟨(W : Int) - 1 + -1, y + 0⟩ = 1
  · rw [if_pos ⟨by omega, by omega, by omega, by omega, hnb⟩] at hacc
    omega
  · have h0 : cellAt g ⟨(W : Int) - 1 + -1, y + 0⟩ = 0 := by
      rcases h01 ⟨(W : Int) - 1 + -1, y + 0⟩ with h | h
      · exact h
      · exact absurd h hnb
    have he : (⟨(W : Int) - 1 + -1, y + 0⟩ : Coordinate) = ⟨(W : Int) - 2, y⟩ := by
      rw [Coordinate.mk.injEq]
      exact ⟨by ring, by ring⟩
    rwa [he] at h0

theorem accept_bottom {W H : Nat} (_hW : 3 ≤ W) (hH : 3 ≤ H) {g : Board}
    (hring : ∀ z : Coordinate, ¬ Interior W H z → cellAt g z = 1)
    (h01 : ∀ z : Coordinate, cellAt g z = 0 ∨ cellAt g z = 1)
    {x : Int} (hx1 : 1 ≤ x) (hx2 : x ≤ (W : Int) - 2)
    (hacc : MazeGenerator.isValidStartEndPoint MazeGenerator.directions W H g
      ⟨x, (H : Int) - 1⟩ = true) : cellAt g ⟨x, (H : Int) - 2⟩ = 0 := by
  unfold MazeGenerator.isValidStartEndPoint at hacc
  rw [foldl_wallCount, countP_four] at hacc
  simp only [decide_eq_true_eq, Nat.zero_add] at hacc
  have hr4 : cellAt g ⟨x + -1, (H : Int) - 1 + 0⟩ = 1 := hring _ (by
    intro hI; unfold Interior at hI; dsimp only at hI; omega)
  have hr2 : cellAt g ⟨x + 1, (H : Int) - 1 + 0⟩ = 1 := hring _ (by
    intro hI; unfold Interior at hI; dsimp only at hI; omega)
  have hc4 : 0 ≤ x + -1 ∧ 0 ≤ (H : Int) - 1 + 0 ∧ (H : Int) - 1 + 0 < (H : Int) ∧
      x + -1 < (W : Int) ∧ cellAt g ⟨x + -1, (H : Int) - 1 + 0⟩ = 1 :=
    ⟨by omega, by omega, by omega, by omega, hr4⟩
  have hc2 : 0 ≤ x + 1 ∧ 0 ≤ (H : Int) - 1 + 0 ∧ (H : Int) - 1 + 0 < (H : Int) ∧
      x + 1 < (W : Int) ∧ cellAt g ⟨x + 1, (H : Int) - 1 + 0⟩ = 1 :=
    ⟨by omega, by omega, by omega, by omega, hr2⟩
  have hc1 : ¬ (0 ≤ x + 0 ∧ 0 ≤ (H : Int) - 1 + 1 ∧
      (H : Int) - 1 + 1 < (H : Int) ∧ x + 0 < (W : Int) ∧
      cellAt g ⟨x + 0, (H : Int) - 1 + 1⟩ = 1) := by
    intro hI; omega
  rw [if_pos hc4, if_pos hc2, if_neg hc1] at hacc
  by_cases hnb : cellAt g ⟨x + 0, (H : Int) - 1 + -1⟩ = 1
  · rw [if_pos ⟨by omega, by omega, by omega, by omega, hnb⟩] at hacc
    omega
  · have h0 : cellAt g ⟨x + 0, (H : Int) - 1 + -1⟩ = 0 := by
      rcases h01 ⟨x + 0, (H : Int) - 1 + -1⟩ with h | h
      · exact h
      · exact absurd h hnb
    have he : (⟨x + 0, (H : Int) - 1 + -1⟩ : Coordinate) = ⟨x, (H : Int) - 2⟩ := by
      rw [Coordinate.mk.injEq]
      exact ⟨by ring, by ring⟩
    rwa [he] at h0

theorem accept_left {W H : Nat} (hW : 3 ≤ W) (_hH : 3 ≤ H) {g : Board}
    (hring : ∀ z : Coordinate, ¬ Interior W H z → cellAt g z = 1)
    (h01 : ∀ z : Coordinate, cellAt g z = 0 ∨ cellAt g z = 1)
    {y : Int} (hy1 : 1 ≤ y) (hy2 : y ≤ (H : Int) - 2)
    (hacc : MazeGenerator.isValidStartEndPoint MazeGenerator.directions W H g
      ⟨0, y⟩ = true) : cellAt g ⟨1, y⟩ = 0 := by
  unfold MazeGenerator.isValidStartEndPoint at hacc
  rw [foldl_wallCount, countP_four] at hacc
  simp only [decide_eq_true_eq, Nat.zero_add] at hacc
  have hr3 : cellAt g ⟨(0 : Int) + 0, y + -1⟩ = 1 := hring _ (by
    intro hI; unfold Interior at hI; dsimp only at hI; omega)
  have hr1 : cellAt g ⟨(0 : Int) + 0, y + 1⟩ = 1 := hring _ (by
    intro hI; unfold Interior at hI; dsimp only at hI; omega)
  have hc4 : ¬ (0 ≤ (0 : Int) + -1 ∧ 0 ≤ y + 0 ∧ y + 0 < (H : Int) ∧
      (0 : Int) + -1 < (W : Int) ∧ cellAt g ⟨(0 : Int) + -1, y + 0⟩ = 1) := by
    intro hI; omega
  have hc3 : 0 ≤ (0 : Int) + 0 ∧ 0 ≤ y + -1 ∧ y + -1 < (H : Int) ∧
      (0 : Int) + 0 < (W : Int) ∧ cellAt g ⟨(0 : Int) + 0, y + -1⟩ = 1 :=
    ⟨by omega, by omega, by omega, by omega, hr3⟩
  have hc1 : 0 ≤ (0 : Int) + 0 ∧ 0 ≤ y + 1 ∧ y + 1 < (H : Int) ∧
      (0 : Int) + 0 < (W : Int) ∧ cellAt g ⟨(0 : Int) + 0, y + 1⟩ = 1 :=
    ⟨by omega, by omega, by omega, by omega, hr1⟩
  rw [if_neg hc4, if_pos hc3, if_pos hc1] at hacc
  by_cases hnb : cellAt g ⟨(0 : Int) + 1, y + 0⟩ = 1
  · rw [if_pos ⟨by omega, by omega, by omega, by omega, hnb⟩] at hacc
    omega
  · have h0 : cellAt g ⟨(0 : Int) + 1, y + 0⟩ = 0 := by
      rcases h01 ⟨(0 : Int) + 1, y + 0⟩ with h | h
      · exact h
      · exact absurd h hnb
    have he : (⟨(0 : Int) + 1, y + 0⟩ : Coordinate) = ⟨1, y⟩ := by
      rw [Coordinate.mk.injEq]
      exact ⟨by ring, by ring⟩
    rwa [he] at h0

/-- An accepted boundary door always has a carved interior neighbor, on any
grid whose boundary ring is intact and whose cells are all `0` or `1`. -/
theorem accept_door {W H : Nat} (hW : 3 ≤ W) (hH : 3 ≤ H) {g : Board}
    (hring : ∀ z : Coordinate, ¬ Interior W H z → cellAt g z = 1)
    (h01 : ∀ z : Coordinate, cellAt g z = 0 ∨ cellAt g z = 1)
    (side : MazeGenerator.Side) (r : Nat)
    (hacc : MazeGenerator.isValidStartEndPoint MazeGenerator.directions W H g
      (MazeGenerator.getRandomSizeCoordinate W H side r) = true) :
    ∃ nb : Coordinate, Interior W H nb ∧ cellAt g nb = 0 ∧
      MazeGenerator.getRandomSizeCoordinate W H side r ∈ getNeighbors nb ∧
      0 ≤ (MazeGenerator.getRandomSizeCoordinate W H side r).x ∧
      (MazeGenerator.getRandomSizeCoordinate W H side r).x < (W : Int) ∧
      0 ≤ (MazeGenerator.getRandomSizeCoordinate W H side r).y ∧
      (MazeGenerator.getRandomSizeCoordinate W H side r).y < (H : Int) := by
  cases side
  case top =>
    have hmod : r % (W - 2) < W - 2 := Nat.mod_lt _ (by omega)
    have hcoord : MazeGenerator.getRandomSizeCoordinate W H
        MazeGenerator.Side.top r = ⟨1 + ((r % (W - 2) : Nat) : Int), 0⟩ := rfl
    rw [hcoord] at hacc
    have hnb0 := accept_top hW hH hring h01 (by omega) (by omega) hacc
    rw [hcoord]
    refine ⟨⟨1 + ((r % (W - 2) : Nat) : Int), 1⟩, ?_, hnb0, ?_, ?_, ?_, ?_, ?_⟩
    · unfold Interior
      dsimp only
      omega
    · simp only [getNeighbors, List.mem_cons, List.not_mem_nil, or_false,
        Coordinate.mk.injEq, true_and, and_true]
      omega
    all_goals dsimp only
    all_goals omega
  case right =>
    have hmod : r % (H - 2) < H - 2 := Nat.mod_lt _ (by omega)
    have hcoord : MazeGenerator.getRandomSizeCoordinate W H
        MazeGenerator.Side.right r =
        ⟨(W : Int) - 1, 1 + ((r % (H - 2) : Nat) : Int)⟩ := rfl
    rw [hcoord] at hacc
    have hnb0 := accept_right hW hH hring h01 (by omega) (by omega) hacc
    rw [hcoord]
    refine ⟨⟨(W : Int) - 2, 1 + ((r % (H - 2) : Nat) : Int)⟩, ?_, hnb0,
      ?_, ?_, ?_, ?_, ?_⟩
    · unfold Interior
      dsimp only
      omega
    · simp only [getNeighbors, List.mem_cons, List.not_mem_nil, or_false,
        Coordinate.mk.injEq, true_and, and_true]
      omega
    all_goals dsimp only
    all_goals omega
  case bottom =>
    have hmod : r % (W - 2) < W - 2 := Nat.mod_lt _ (by omega)
    have hcoord : MazeGenerator.getRandomSizeCoordinate W H
        MazeGenerator.Side.bottom r =
        ⟨1 + ((r % (W - 2) : Nat) : Int), (H : Int) - 1⟩ := rfl
    rw [hcoord] at hacc
    have hnb0 := accept_bottom hW hH hring h01 (by omega) (by omega) hacc
    rw [hcoord]
    refine ⟨⟨1 + ((r % (W - 2) : Nat) : Int), (H : Int) - 2⟩, ?_, hnb0,
      ?_, ?_, ?_, ?_, ?_⟩
    · unfold Interior
      dsimp only
      omega
    · simp only [getNeighbors, List.mem_cons, List.not_mem_nil, or_false,
        Coordinate.mk.injEq, true_and, and_true]
      omega
    all_goals dsimp only
    all_goals omega
  case left =>
    have hmod : r % (H - 2) < H - 2 := Nat.mod_lt _ (by omega)
    have hcoord : MazeGenerator.getRandomSizeCoordinate W H
        MazeGenerator.Side.left r =
        ⟨0, 1 + ((r % (H - 2) : Nat) : Int)⟩ := rfl
    rw [hcoord] at hacc
    have hnb0 := accept_left hW hH hring h01 (by omega) (by omega) hacc
    rw [hcoord]
    refine ⟨⟨1, 1 + ((r % (H - 2) : Nat) : Int)⟩, ?_, hnb0, ?_, ?_, ?_, ?_, ?_⟩
    · unfold Interior
      dsimp only
      omega
    · simp only [getNeighbors, List.mem_cons, List.not_mem_nil, or_false,
        Coordinate.mk.injEq, true_and, and_true]
      omega
    all_goals dsimp only
    all_goals omega

/-- A successful placement loop returns one of the sampled boundary
coordinates, and that coordinate passed the acceptance test. -/
theorem secLoop_some_form (dirs : List (Int × Int)) (W H : Nat) (g : Board)
    (side : MazeGenerator.Side) (ρ : Nat → Nat) :
    ∀ r i c i', MazeGenerator.secLoop dirs W H g side ρ r i = some (c, i') →
      ∃ j, c = MazeGenerator.getRandomSizeCoordinate W H side (ρ j) ∧
        MazeGenerator.isValidStartEndPoint dirs W H g c = true := by
  intro r
  induction r with
  | zero =>
    intro i c i' h
    simp [MazeGenerator.secLoop] at h
  | succ r ih =>
    intro i c i' h
    by_cases hv : MazeGenerator.isValidStartEndPoint dirs W H g
        (MazeGenerator.getRandomSizeCoordinate W H side (ρ i)) = true
    · simp [MazeGenerator.secLoop, hv] at h
      exact ⟨i, h.1.symm, h.1 ▸ hv⟩
    · have hv' : MazeGenerator.isValidStartEndPoint dirs W H g
          (MazeGenerator.getRandomSizeCoordinate W H side (ρ i)) = false := by
        simpa using hv
      simp only [MazeGenerator.secLoop, hv', Bool.false_eq_true, if_false] at h
      exact ih (i + 1) c i' h

/-- Inversion of a successful `createStartAndEnd`: both doors are sampled
boundary coordinates accepted on the carved grid, and the returned grid is
the carved grid with the two doors forced passable. -/
theorem createStartAndEnd_inv {dirs : List (Int × Int)} {W H : Nat}
    {g : Board} {ρ : Nat → Nat} {i : Nat} {start endc : Coordinate}
    {g2 : Board} {i2 : Nat}
    (h : MazeGenerator.createStartAndEnd dirs W H g ρ i =
      some (start, endc, g2, i2)) :
    g2 = MazeGenerator.setCell (MazeGenerator.setCell g start 0) endc 0 ∧
    (∃ side j, start = MazeGenerator.getRandomSizeCoordinate W H side (ρ j) ∧
      MazeGenerator.isValidStartEndPoint dirs W H g start = true) ∧
    (∃ side j, endc = MazeGenerator.getRandomSizeCoordinate W H side (ρ j) ∧
      MazeGenerator.isValidStartEndPoint dirs W H g endc = true) := by
  simp only [MazeGenerator.createStartAndEnd] at h
  split at h
  · exact absurd h (by simp)
  · next s1 i1 heq1 =>
    split at h
    · exact absurd h (by simp)
    · next e1 i1' heq2 =>
      simp only [Option.some.injEq, Prod.mk.injEq] at h
      obtain ⟨hs, he, hg, _⟩ := h
      refine ⟨?_, ?_, ?_⟩
      · rw [← hg, hs, he]
      · obtain ⟨j, hj1, hj2⟩ :=
          secLoop_some_form dirs W H g _ ρ 100 (i + 1) s1 i1 heq1
        exact ⟨_, j, by rw [← hs]; exact hj1, by rw [← hs]; exact hj2⟩
      · obtain ⟨j, hj1, hj2⟩ :=
          secLoop_some_form dirs W H g _ ρ 100 i1 e1 i1' heq2
        exact ⟨_, j, by rw [← he]; exact hj1, by rw [← he]; exact hj2⟩

/-- Inversion of a successful `Maze.create`: the fields are stored as
given and the entrance passed the (doubly evaluated) validity check. -/
theorem create_some_inv {board : Board} {s e : Coordinate} {mz : Maze}
    (h : Maze.create board s e = some mz) :
    mz.maze = board ∧ mz.start = s ∧ mz.endc = e ∧
    isValidCoordinate board s = true := by
  by_cases hv : isValidCoordinate board s = true
  · simp only [Maze.create, hv, Bool.not_true, Bool.or_self, Bool.false_eq_true,
      if_false, Option.some.injEq] at h
    rw [← h]
    exact ⟨rfl, rfl, rfl, hv⟩
  · have hv' : isValidCoordinate board s = false := by simpa using hv
    simp [Maze.create, hv'] at h

/-! ## Entrance and exit of a generated maze (claim C2) -/

/-- C2: for odd dimensions at least 3, whenever `generate` succeeds, the
returned maze's entrance and exit are in-bounds passable cells, and each
is reachable from the other through a 4-connected path of passable
cells. -/
theorem generate_connects (W H : Nat) (ρ : Nat → Nat)
    (hW : 3 ≤ W) (_hWodd : W % 2 = 1) (hH : 3 ≤ H) (_hHodd : H % 2 = 1)
    (mz : Maze) (hgen : MazeGenerator.generate W H ρ = some mz) :
    isValidCoordinate mz.maze mz.start = true ∧
    isValidCoordinate mz.maze mz.endc = true ∧
    PassReach mz.maze mz.start mz.endc ∧
    PassReach mz.maze mz.endc mz.start := by
  simp only [MazeGenerator.generate] at hgen
  split at hgen
  · exact absurd hgen (by simp)
  · next g dirs i hrb =>
    split at hgen
    · exact absurd hgen (by simp)
    · next start endc g2 i2 hse =>
      have hint : Interior W H ⟨1 + ((ρ 0 % ((W - 1) / 2) : Nat) : Int) * 2,
          1 + ((ρ 1 % ((H - 1) / 2) : Nat) : Int) * 2⟩ := by
        have m1 : ρ 0 % ((W - 1) / 2) < (W - 1) / 2 := Nat.mod_lt _ (by omega)
        have m2 : ρ 1 % ((H - 1) / 2) < (H - 1) / 2 := Nat.mod_lt _ (by omega)
        unfold Interior
        dsimp only
        omega
      have hpost := rb_post ρ (W * H) (List.replicate H (List.replicate W 1))
        MazeGenerator.directions 2 _ (g, dirs, i) (by decide) hint
        (shaped_initGrid W H) hrb
      unfold RbPost at hpost
      dsimp only at hpost
      obtain ⟨hdP, hsg, hmono, hframe, hcarv, hconn⟩ := hpost
      have hring : ∀ z : Coordinate, ¬ Interior W H z → cellAt g z = 1 := by
        intro z hz
        rw [hframe z hz]
        exact cellAt_initGrid W H z
      have h01 : ∀ z : Coordinate, cellAt g z = 0 ∨ cellAt g z = 1 := by
        intro z
        rcases hmono z with h | h
        · rw [h]
          exact Or.inr (cellAt_initGrid W H z)
        · exact Or.inl h
      obtain ⟨hg2, ⟨side1, j1, hseq, hsacc⟩, ⟨side2, j2, heeq, heacc⟩⟩ :=
        createStartAndEnd_inv hse
      rw [isValidStartEndPoint_perm (perms24_perm dirs hdP)] at hsacc heacc
      rw [hseq] at hsacc
      rw [heeq] at heacc
      obtain ⟨nb1, hnb1I, hnb1c, hnb1mem, hsx0, hsxW, hsy0, hsyH⟩ :=
        accept_door hW hH hring h01 side1 (ρ j1) hsacc
      obtain ⟨nb2, hnb2I, hnb2c, hnb2mem, hex0, hexW, hey0, heyH⟩ :=
        accept_door hW hH hring h01 side2 (ρ j2) heacc
      rw [← hseq] at hnb1mem hsx0 hsxW hsy0 hsyH
      rw [← heeq] at hnb2mem hex0 hexW hey0 heyH
      have hsg2 : Shaped W H g2 := by
        rw [hg2]
        exact shaped_setCell (shaped_setCell hsg _ _) _ _
      have hz12 : ∀ z, cellAt g z = 0 → cellAt g2 z = 0 := by
        intro z hz
        rw [hg2]
        exact cellAt_setCell_zero_mono (cellAt_setCell_zero_mono hz)
      have hsyH' : start.y.toNat < H := by omega
      have hsxW' : start.x.toNat < W := by omega
      have heyH' : endc.y.toNat < H := by omega
      have hexW' : endc.x.toNat < W := by omega
      have hb_sy : start.y.toNat < g.length := by rw [hsg.1]; exact hsyH'
      have hb_sx : start.x.toNat < (g.getD start.y.toNat []).length := by
        rw [hsg.2 _ hsyH']
        exact hsxW'
      have hstart0 : cellAt g2 start = 0 := by
        rw [hg2]
        rcases cellAt_setCell_cases (MazeGenerator.setCell g start 0) endc
            start 0 with h | h
        · rw [h]
          exact cellAt_setCell_self hb_sy hb_sx
        · exact h
      have hend0 : cellAt g2 endc = 0 := by
        rw [hg2]
        refine cellAt_setCell_self ?_ ?_
        · rw [setCell_length, hsg.1]
          exact heyH'
        · rw [setCell_row_length, hsg.2 _ heyH']
          exact hexW'
      have hlen2 : g2.length = H := hsg2.1
      have hhead2 : (g2.headD []).length = W := by
        rw [headD_eq_getD, hsg2.2 0 (by omega)]
      have hvstart : isValidCoordinate g2 start = true := by
        rw [isValidCoordinate_iff]
        refine ⟨by omega, ?_, by omega, ?_, hstart0⟩
        · rw [hlen2]; omega
        · rw [hhead2]; omega
      have hvend : isValidCoordinate g2 endc = true := by
        rw [isValidCoordinate_iff]
        refine ⟨by omega, ?_, by omega, ?_, hend0⟩
        · rw [hlen2]; omega
        · rw [hhead2]; omega
      have hcc1 := hconn nb1 hnb1c
      rw [cellAt_initGrid] at hcc1
      have hreach1g := hcc1.resolve_left one_ne_zero
      have hcc2 := hconn nb2 hnb2c
      rw [cellAt_initGrid] at hcc2
      have hreach2g := hcc2.resolve_left one_ne_zero
      have hreach1 := passReach_mono_shaped hsg hsg2 hz12 hreach1g
      have hreach2 := passReach_mono_shaped hsg hsg2 hz12 hreach2g
      have hvorigin := interior_valid hsg2 hint (hz12 _ hcarv)
      have hrs := PassReach.step hreach1 hnb1mem hvstart
      have hre := PassReach.step hreach2 hnb2mem hvend
      have hforward : PassReach g2 start endc :=
        passReach_trans (passReach_symm hvorigin hrs) hre
      have hbackward : PassReach g2 endc start :=
        passReach_trans (passReach_symm hvorigin hre) hrs
      obtain ⟨hm1, hm2, hm3, _⟩ := create_some_inv hgen
      rw [hm1, hm2, hm3]
      exact ⟨hvstart, hvend, hforward, hbackward⟩

/-- Witness for C2 at the smallest odd size: with the all-zero random
stream, `generate 3 3` returns the maze `[[1,0,1],[1,0,0],[1,1,1]]` with
entrance `(1,0)` and exit `(2,1)`, and the theorem instantiates to it. -/
theorem generate_connects_witness :
    isValidCoordinate [[1, 0, 1], [1, 0, 0], [1, 1, 1]] ⟨1, 0⟩ = true ∧
    isValidCoordinate [[1, 0, 1], [1, 0, 0], [1, 1, 1]] ⟨2, 1⟩ = true ∧
    PassReach [[1, 0, 1], [1, 0, 0], [1, 1, 1]] ⟨1, 0⟩ ⟨2, 1⟩ ∧
    PassReach [[1, 0, 1], [1, 0, 0], [1, 1, 1]] ⟨2, 1⟩ ⟨1, 0⟩ :=
  generate_connects 3 3 (fun _ => 0) (by decide) (by decide) (by decide)
    (by decide) ⟨[[1, 0, 1], [1, 0, 0], [1, 1, 1]], ⟨1, 0⟩, ⟨2, 1⟩⟩ (by rfl)
